import Mathlib

/-!
Verification of the go-irc client library against its specification.

Go strings are embedded as `List Nat` (their byte sequences); Go `[]string`
as `List (List Nat)`; Go maps as association lists with insert-or-replace
semantics.  Functions that can panic in Go (out-of-bounds indexing or
slicing) are embedded as `Option`-returning functions where a claim depends
on the panic, with `none` marking the panic.  All definitions are
executable; recursion that Go expresses with loops over shrinking strings
is expressed with an explicit fuel argument that provably suffices
(each iteration consumes at least one byte, and the fuel is the byte length).
-/

/-- Byte list of an ASCII string literal (each char's code point; used only
for ASCII data, where code point = byte). -/
def ascii (s : String) : List Nat := s.data.map Char.toNat

/-- `strings.Split(s, sep)` for a single-byte separator.  Matches Go:
`Split("", sep) = [""]`, and the result is never empty. -/
def goSplitB (sep : Nat) : List Nat → List (List Nat)
| [] => [[]]
| b :: rest =>
  if b = sep then [] :: goSplitB sep rest
  else
    match goSplitB sep rest with
    | [] => [[b]]
    | t :: ts => (b :: t) :: ts

/-- Split a byte string at the first occurrence of `sep`:
`some (before, after)` or `none` when `sep` does not occur. -/
def breakAtByte (sep : Nat) : List Nat → Option (List Nat × List Nat)
| [] => none
| b :: rest =>
  if b = sep then some ([], rest)
  else (breakAtByte sep rest).map (fun p => (b :: p.1, p.2))

/-- `strings.SplitN(s, sep, n)` for a single-byte separator and `n ≥ 0`. -/
def goSplitNB (sep : Nat) : Nat → List Nat → List (List Nat)
| 0, _ => []
| 1, s => [s]
| n + 2, s =>
  match breakAtByte sep s with
  | none => [s]
  | some (l, r) => l :: goSplitNB sep (n + 1) r

/-- `strings.Index(s, t)` for a single-byte `t`, as an `Option` (Go: -1). -/
def goIndexByte (b : Nat) : List Nat → Option Nat
| [] => none
| x :: rest => if x = b then some 0 else (goIndexByte b rest).map (· + 1)

/-- `strings.Index(s, t)` for a two-byte pattern `t = [a, b]`, as an
`Option` (Go returns -1 when absent). -/
def goIndex2 (a b : Nat) : List Nat → Option Nat
| [] => none
| [_] => none
| x :: y :: rest =>
  if x = a ∧ y = b then some 0 else (goIndex2 a b (y :: rest)).map (· + 1)

/-- `strings.LastIndex(s, " ")` style search for a single byte, as an
`Option` (Go returns -1 when absent). -/
def lastIndexByte (b : Nat) : List Nat → Option Nat
| [] => none
| x :: rest =>
  match lastIndexByte b rest with
  | some k => some (k + 1)
  | none => if x = b then some 0 else none

/-- `strings.TrimRight(s, " ")`: drop trailing ASCII-space bytes. -/
def trimRightSpaces (s : List Nat) : List Nat :=
  (s.reverse.dropWhile (fun b => b == 32)).reverse

/-- Splitting on the bytes `'!'` and `'@'` keeping only nonempty fields:
the byte-level equivalent of Go's
`strings.FieldsFunc(s, func(r rune) bool { return r == '!' || r == '@' })`
(both separators are ASCII, so they are never part of a multi-byte rune
and are decoded as themselves even in invalid UTF-8). -/
def splitBangAt : List Nat → List (List Nat)
| [] => [[]]
| b :: rest =>
  if b = 33 ∨ b = 64 then [] :: splitBangAt rest
  else
    match splitBangAt rest with
    | [] => [[b]]
    | t :: ts => (b :: t) :: ts

/-- Go `FieldsFunc` on `'!'`/`'@'`: the split with empty fields removed. -/
def fieldsBangAt (s : List Nat) : List (List Nat) :=
  (splitBangAt s).filter (fun f => f ≠ [])

/-- Go's `pad`: return `in` if it already has length `n`, otherwise copy it
into a fresh slice of length `n` (truncating or padding with `""`). -/
def pad (xs : List (List Nat)) (n : Nat) : List (List Nat) :=
  if xs.length = n then xs else (xs ++ List.replicate n []).take n

/-- One step of `strconv.ParseUint(s, 10, 64)`: accumulate decimal digits
with Go's cutoff and overflow checks; returns `(value, ok)`, where on
error the value is Go's returned value (0 for syntax, maxUint64 for
range). -/
def parseUintAux : List Nat → Nat → Nat × Bool
| [], n => (n, true)
| d :: rest, n =>
  if d < 48 ∨ 57 < d then (0, false)
  else if 1844674407370955162 ≤ n then (18446744073709551615, false)
  else if 18446744073709551615 < n * 10 + (d - 48) then (18446744073709551615, false)
  else parseUintAux rest (n * 10 + (d - 48))

/-- `strconv.Atoi`: `(value, ok)` where `ok = false` iff Go returns an
error; the value on error matches Go (0 for syntax errors, the clamped
int64 bound for range errors). -/
def goAtoi (s : List Nat) : Int × Bool :=
  match s with
  | [] => (0, false)
  | b :: rest =>
    let neg : Bool := b = 45
    let digits : List Nat := if b = 45 ∨ b = 43 then rest else s
    if digits = [] then (0, false)
    else
      let p := parseUintAux digits 0
      let un := p.1
      if neg = false ∧ 9223372036854775808 ≤ un then (9223372036854775807, false)
      else if neg = true ∧ 9223372036854775808 < un then (-9223372036854775808, false)
      else ((if neg then -(un : Int) else (un : Int)), p.2)

/-- Decimal value of a digit string (used to state claims about `Atoi`). -/
def decValue (ds : List Nat) : Nat := ds.foldl (fun a d => a * 10 + (d - 48)) 0

/-- Association-list lookup (model of Go map read). -/
def assocLookup {κ α : Type} [DecidableEq κ] (k : κ) : List (κ × α) → Option α
| [] => none
| (k', v) :: t => if k' = k then some v else assocLookup k t

/-- Association-list insert-or-replace (model of Go map assignment). -/
def mapInsert {κ α : Type} [DecidableEq κ] (k : κ) (v : α) : List (κ × α) → List (κ × α)
| [] => [(k, v)]
| (k', v') :: t => if k' = k then (k', v) :: t else (k', v') :: mapInsert k v t

/-! ## UTF-8 (package `unicode/utf8`, byte-level) -/

/-- Go `utf8.RuneError` (U+FFFD). -/
def RErr : Nat := 0xFFFD

/-- A UTF-8 continuation byte (`0x80..0xBF`).  Equals Go's
`b&0xC0 == 0x80` on bytes. -/
def contB (b : Nat) : Bool := 0x80 ≤ b && b < 0xC0

/-- Go `utf8.RuneStart`: not a continuation byte. -/
def runeStart (b : Nat) : Bool := !contB b

/-- Accepted ranges for the second byte of a three-byte sequence
(Go's `acceptRanges` table: E0 → A0..BF, ED → 80..9F, else 80..BF). -/
def acc3 (b c1 : Nat) : Bool :=
  if b = 0xE0 then 0xA0 ≤ c1 && c1 ≤ 0xBF
  else if b = 0xED then 0x80 ≤ c1 && c1 ≤ 0x9F
  else contB c1

/-- Accepted ranges for the second byte of a four-byte sequence
(F0 → 90..BF, F4 → 80..8F, else 80..BF). -/
def acc4 (b c1 : Nat) : Bool :=
  if b = 0xF0 then 0x90 ≤ c1 && c1 ≤ 0xBF
  else if b = 0xF4 then 0x80 ≤ c1 && c1 ≤ 0x8F
  else contB c1

/-- Go `utf8.DecodeRuneInString`: `(rune, size)`; `(RErr, 0)` on empty
input, `(RErr, 1)` on an invalid sequence. -/
def decodeRune : List Nat → Nat × Nat
| [] => (RErr, 0)
| b :: rest =>
  if b < 0x80 then (b, 1)
  else if b < 0xC2 then (RErr, 1)
  else if b < 0xE0 then
    match rest with
    | c1 :: _ => if contB c1 then ((b - 0xC0) * 0x40 + (c1 - 0x80), 2) else (RErr, 1)
    | [] => (RErr, 1)
  else if b < 0xF0 then
    match rest with
    | c1 :: c2 :: _ =>
      if acc3 b c1 && contB c2 then
        (((b - 0xE0) * 0x40 + (c1 - 0x80)) * 0x40 + (c2 - 0x80), 3)
      else (RErr, 1)
    | _ => (RErr, 1)
  else if b < 0xF5 then
    match rest with
    | c1 :: c2 :: c3 :: _ =>
      if acc4 b c1 && contB c2 && contB c3 then
        ((((b - 0xF0) * 0x40 + (c1 - 0x80)) * 0x40 + (c2 - 0x80)) * 0x40 + (c3 - 0x80), 4)
      else (RErr, 1)
    | _ => (RErr, 1)
  else (RErr, 1)

/-- The scan of `DecodeLastRuneInString`: walk positions `hi, hi-1, ...`
down to `lim`, returning the first position holding a rune-start byte. -/
def scanStart (s : List Nat) (lim : Nat) : Nat → Option Nat
| 0 => if runeStart (s.getD 0 0) then some 0 else none
| hi + 1 =>
  if runeStart (s.getD (hi + 1) 0) then some (hi + 1)
  else if hi + 1 ≤ lim then none
  else scanStart s lim hi

/-- The `start` index computed by `DecodeLastRuneInString` on its
non-ASCII path: with `e = len(s)` and `lim = max(0, e-4)`, the scan runs
from `e-2` down to `lim`; if it never runs (`e = 1`) or finds no
rune-start byte, `start` is 0 when `lim = 0` and `lim - 1` otherwise
(Go's loop counter has gone below `lim`, clamped at 0). -/
def dlrStart (s : List Nat) : Nat :=
  if s.length < (s.length - 4) + 2 then (if s.length - 4 = 0 then 0 else s.length - 4 - 1)
  else
    match scanStart s (s.length - 4) (s.length - 2) with
    | some p => p
    | none => if s.length - 4 = 0 then 0 else s.length - 4 - 1

/-- Go `utf8.DecodeLastRuneInString`. -/
def decodeLastRune (s : List Nat) : Nat × Nat :=
  match s.getLast? with
  | none => (RErr, 0)
  | some lb =>
    if lb < 0x80 then (lb, 1)
    else if dlrStart s + (decodeRune (s.drop (dlrStart s))).2 = s.length then
      decodeRune (s.drop (dlrStart s))
    else (RErr, 1)

/-- Fueled loop of Go `utf8.ValidString`: decode runes from the front and
fail on the first invalid sequence.  Each step consumes at least one byte,
so fuel `s.length` suffices and the fuel-exhausted case (`s = []`) returns
`true` exactly as Go does. -/
def validAux : Nat → List Nat → Bool
| 0, _ => true
| f + 1, s =>
  match s with
  | [] => true
  | b :: rest =>
    let p := decodeRune (b :: rest)
    if p.1 = RErr ∧ p.2 = 1 then false else validAux f ((b :: rest).drop p.2)

/-- Go `utf8.ValidString` over bytes. -/
def validUTF8 (s : List Nat) : Bool := validAux s.length s

/-- Fueled loop of Go's `[]rune(s)` conversion: decode runes from the
front (invalid bytes become U+FFFD, advancing one byte). -/
def runesAux : Nat → List Nat → List Nat
| 0, _ => []
| f + 1, s =>
  match s with
  | [] => []
  | b :: rest =>
    let p := decodeRune (b :: rest)
    p.1 :: runesAux f ((b :: rest).drop p.2)

/-- Go `[]rune(s)`: the decoded rune sequence of a byte string. -/
def runesOf (s : List Nat) : List Nat := runesAux s.length s

/-- `unicode.IsSpace` (White_Space property). -/
def isSpaceRune (r : Nat) : Bool :=
  (9 ≤ r && r ≤ 13) || r = 32 || r = 0x85 || r = 0xA0 ||
  r = 0x1680 || (0x2000 ≤ r && r ≤ 0x200A) ||
  r = 0x2028 || r = 0x2029 || r = 0x202F || r = 0x205F || r = 0x3000

/-- Fueled loop of `strings.TrimLeftFunc(s, unicode.IsSpace)`: drop leading
runes while they are white space. -/
def trimAux : Nat → List Nat → List Nat
| 0, s => s
| f + 1, s =>
  match s with
  | [] => []
  | b :: rest =>
    let p := decodeRune (b :: rest)
    if isSpaceRune p.1 then trimAux f ((b :: rest).drop p.2) else b :: rest

/-- `strings.TrimLeftFunc(s, unicode.IsSpace)` over bytes. -/
def trimLeftSpace (s : List Nat) : List Nat := trimAux s.length s

/-! ## Message parsing (`client.go`) -/

/-- Go `Mask`: the structured form of a message prefix. -/
structure Mask where
  Nick : List Nat
  User : List Nat
  Host : List Nat
deriving DecidableEq, Repr

/-- Go `Message` (the parsed IRC line). -/
structure Message where
  Raw : List Nat
  Pfx : Mask
  Command : List Nat
  Params : List (List Nat)
  Signal : List Nat
deriving DecidableEq, Repr

/-- Go `parseParams`.  Total: every index and slice it takes is guarded. -/
def parseParams (params : List Nat) : List (List Nat) :=
  match params with
  | [] => []
  | b :: rest =>
    if b = 58 then
      (if rest = [] then [[]] else [trimRightSpaces rest])
    else
      match goIndex2 32 58 params with
      | none => goSplitB 32 params
      | some idx =>
        let left := params.take idx
        let right := trimRightSpaces (params.drop (idx + 2))
        (if 0 < left.length then goSplitB 32 left else []) ++
        (if idx < params.length then [right] else [])

/-- Go `Parse`.  `none` models the panic on the empty string (`s[0]`
is read unconditionally); every other access is in bounds. -/
def goParse (s : List Nat) : Option Message :=
  match s with
  | [] => none
  | b :: _ =>
    if b = 58 then
      let parts := pad (goSplitNB 32 3 s) 3
      let pfxStr := (parts.getD 0 []).drop 1
      let mask :=
        if goIndexByte 33 pfxStr = none then ⟨[], [], pfxStr⟩
        else
          let ps := pad (fieldsBangAt pfxStr) 3
          (⟨ps.getD 0 [], ps.getD 1 [], ps.getD 2 []⟩ : Mask)
      some ⟨s, mask, parts.getD 1 [], parseParams (parts.getD 2 []), parts.getD 1 []⟩
    else
      let parts := pad (goSplitNB 32 2 s) 2
      some ⟨s, ⟨[], [], []⟩, parts.getD 0 [], parseParams (parts.getD 1 []), parts.getD 0 []⟩

/-- Go `Message.IsNumeric`: exactly three ASCII digits. -/
def IsNumeric (m : Message) : Bool :=
  match m.Command with
  | [a, b, c] =>
    (48 ≤ a && a ≤ 57) && (48 ≤ b && b ≤ 57) && (48 ≤ c && c ≤ 57)
  | _ => false

/-- Go `Message.IsCTCP`. -/
def IsCTCP (m : Message) : Bool :=
  match m.Params.getLast? with
  | none => false
  | some s =>
    if s.length < 2 then false
    else s.getD 0 0 == 1 && s.getD (s.length - 1) 0 == 1

/-- Go `CTCPMessage`. -/
structure CTCPMessage where
  Raw : List Nat
  Command : List Nat
  Params : List (List Nat)
deriving DecidableEq, Repr

/-- Go `ParseCTCP`. -/
def ParseCTCP (s : List Nat) : Option CTCPMessage :=
  if s.length < 2 then none
  else
    let s' := (s.drop 1).dropLast
    let parts := goSplitB 32 s'
    some ⟨s', parts.getD 0 [], if 1 < parts.length then parts.drop 1 else []⟩

/-- Go `Message.CTCP`: `none` models the `"not a CTCP message"` error. -/
def MessageCTCP (m : Message) : Option CTCPMessage :=
  if IsCTCP m then ParseCTCP (m.Params.getLast?.getD []) else none

/-! ## Registration numerics and `Client.Connected` -/

/-- Modelled from the spec: the symbolic numeric constants (`RPL_WELCOME`
etc.) are used but not declared in the sources at hand; §6 of the spec
fixes their three-digit codes (an earlier revision of the client spells
the same codes as literals). -/
def RPL_WELCOME : List Nat := ascii "001"

/-- Modelled from the spec: numeric 002. -/
def RPL_YOURHOST : List Nat := ascii "002"

/-- Modelled from the spec: numeric 003. -/
def RPL_CREATED : List Nat := ascii "003"

/-- Modelled from the spec: numeric 004. -/
def RPL_MYINFO : List Nat := ascii "004"

/-- Modelled from the spec: numeric 005. -/
def RPL_ISUPPORT : List Nat := ascii "005"

/-- Modelled from the spec: numeric 324. -/
def RPL_CHANNELMODEIS : List Nat := ascii "324"

/-- Modelled from the spec: numeric 353. -/
def RPL_NAMEREPLY : List Nat := ascii "353"

/-- Modelled from the spec: numeric 367. -/
def RPL_BANLIST : List Nat := ascii "367"

/-- Modelled from the spec: numeric 422. -/
def ERR_NOMOTD : List Nat := ascii "422"

/-- Go `inStrings`. -/
def inStrings (l : List (List Nat)) (s : List Nat) : Bool :=
  match l with
  | [] => false
  | e :: t => if e = s then true else inStrings t s

/-- Go `Client.Connected`, as a function of the recorded registration
numerics (`c.connected`). -/
def ClientConnected (connected : List (List Nat)) : Bool :=
  inStrings connected ERR_NOMOTD ||
    (inStrings connected RPL_WELCOME &&
      inStrings connected RPL_YOURHOST &&
      inStrings connected RPL_CREATED &&
      inStrings connected RPL_MYINFO)

/-- Go `inRunes`. -/
def inRunes (runes : List Nat) (search : Nat) : Bool :=
  match runes with
  | [] => false
  | r :: t => if r = search then true else inRunes t search

/-! ## ISUPPORT folding -/

/-- Go `ChanModes` (the four CHANMODES classes). -/
structure ChanModes where
  A : List Nat
  B : List Nat
  C : List Nat
  D : List Nat
deriving DecidableEq, Repr

/-- Go `ISupport`.  Go maps become association lists; the field written
`Pfx` here is Go's `Prefix` map.  The `nil`-map guards of the Go code are
no-ops in this model (a `nil` map and an empty map read identically, and
`NewISupport` allocates all three maps). -/
structure ISupport where
  AwayLen : Int
  CNOTICE : Bool
  CPRIVMSG : Bool
  CaseMapping : List Nat
  ChanLimit : List (Nat × Int)
  ChanModes : ChanModes
  ChanTypes : List Nat
  ChannelLen : Int
  ChidLen : Int
  ETRACE : Bool
  ELIST : List Nat
  Excepts : Bool
  FNC : Bool
  Invex : Bool
  KickLen : Int
  Knock : Bool
  MaxBans : Int
  MaxChannels : Int
  MaxList : List (Nat × Int)
  MaxTargets : Int
  Modes : Int
  Monitor : Int
  Network : List Nat
  NickLen : Int
  Pfx : List (Nat × Nat)
  Silence : Int
  StatusMsg : List Nat
  TargMax : List (List Nat × Int)
  TopicLen : Int
  Watch : Int
deriving DecidableEq, Repr

/-- Go `NewISupport`. -/
def NewISupport : ISupport where
  AwayLen := 0
  CNOTICE := false
  CPRIVMSG := false
  CaseMapping := ascii "rfc1459"
  ChanLimit := []
  ChanModes := ⟨[], [], [], []⟩
  ChanTypes := []
  ChannelLen := 0
  ChidLen := 0
  ETRACE := false
  ELIST := []
  Excepts := false
  FNC := false
  Invex := false
  KickLen := 0
  Knock := false
  MaxBans := 0
  MaxChannels := 0
  MaxList := []
  MaxTargets := 0
  Modes := 3
  Monitor := 0
  Network := []
  NickLen := 9
  Pfx := [(111, 64), (118, 43)]
  Silence := 0
  StatusMsg := []
  TargMax := []
  TopicLen := 0
  Watch := 0

/-- Go `ISupport.setBool`. -/
def setBool (is : ISupport) (name : List Nat) (value : Bool) : ISupport :=
  if name = ascii "EXCEPTS" then { is with Excepts := value }
  else if name = ascii "INVEX" then { is with Invex := value }
  else if name = ascii "KNOCK" then { is with Knock := value }
  else if name = ascii "ETRACE" then { is with ETRACE := value }
  else if name = ascii "CPRIVMSG" then { is with CPRIVMSG := value }
  else if name = ascii "CNOTICE" then { is with CNOTICE := value }
  else if name = ascii "FNC" then { is with FNC := value }
  else is

/-- Go `ISupport.setInt`. -/
def setInt (is : ISupport) (name : List Nat) (value : Int) : ISupport :=
  if name = ascii "MODES" then { is with Modes := value }
  else if name = ascii "NICKLEN" then { is with NickLen := value }
  else if name = ascii "CHANNELLEN" then { is with ChannelLen := value }
  else if name = ascii "TOPICLEN" then { is with TopicLen := value }
  else if name = ascii "MONITOR" then { is with Monitor := value }
  else if name = ascii "MAXCHANNELS" then { is with MaxChannels := value }
  else if name = ascii "MAXBANS" then { is with MaxBans := value }
  else if name = ascii "KICKLEN" then { is with KickLen := value }
  else if name = ascii "CHIDLEN" then { is with ChidLen := value }
  else if name = ascii "SILENCE" then { is with Silence := value }
  else if name = ascii "AWAYLEN" then { is with AwayLen := value }
  else if name = ascii "WATCH" then { is with Watch := value }
  else if name = ascii "MAXTARGETS" then { is with MaxTargets := value }
  else is

/-- The loop body of Go `splitPrefixNum`: process the comma-separated
entries in order, writing into the accumulated map; `none` models the
panic when an entry has no `':'` (`parts[1]` with `len(parts) == 1`). -/
def spnAux : List (List Nat) → List (List Nat × Int) → Option (List (List Nat × Int))
| [], acc => some acc
| pair :: rest, acc =>
  match goSplitB 58 pair with
  | p0 :: p1 :: _ =>
    spnAux rest (mapInsert p0 (if 0 < p1.length then (goAtoi p1).1 else -1) acc)
  | _ => none

/-- Go `splitPrefixNum`. -/
def splitPrefixNum (pairs : List Nat) : Option (List (List Nat × Int)) :=
  spnAux (goSplitB 44 pairs) []

/-- The body of the `for _, option := range m.Params[1:]` loop of Go
`ISupport.Parse`, for a single option token; `none` models a panic. -/
def applyOption (is : ISupport) (opt : List Nat) : Option ISupport :=
  let parts := pad (goSplitB 61 opt) 2
  let key := parts.getD 0 []
  let val := parts.getD 1 []
  if key = ascii "EXCEPTS" ∨ key = ascii "INVEX" ∨ key = ascii "KNOCK" ∨
     key = ascii "ETRACE" ∨ key = ascii "CPRIVMSG" ∨ key = ascii "CNOTICE" ∨
     key = ascii "FNC" then
    some (setBool is key true)
  else if key = ascii "MODES" ∨ key = ascii "NICKLEN" ∨ key = ascii "CHANNELLEN" ∨
     key = ascii "TOPICLEN" ∨ key = ascii "MONITOR" ∨ key = ascii "MAXCHANNELS" ∨
     key = ascii "MAXBANS" ∨ key = ascii "KICKLEN" ∨ key = ascii "CHIDLEN" ∨
     key = ascii "SILENCE" ∨ key = ascii "AWAYLEN" ∨ key = ascii "WATCH" ∨
     key = ascii "MAXTARGETS" then
    let p := goAtoi val
    if p.2 = false then some is else some (setInt is key p.1)
  else if key = ascii "NETWORK" then some { is with Network := val }
  else if key = ascii "CASEMAPPING" then some { is with CaseMapping := val }
  else if key = ascii "CHANMODES" then
    let modes := pad (goSplitB 44 val) 4
    some { is with ChanModes :=
      ⟨runesOf (modes.getD 0 []), runesOf (modes.getD 1 []),
       runesOf (modes.getD 2 []), runesOf (modes.getD 3 [])⟩ }
  else if key = ascii "CHANTYPES" then some { is with ChanTypes := runesOf val }
  else if key = ascii "CHANLIMIT" then
    match splitPrefixNum val with
    | none => none
    | some m =>
      let cl := m.foldl
        (fun cl e => (runesOf e.1).foldl (fun cl r => mapInsert r e.2 cl) cl)
        is.ChanLimit
      some { is with ChanLimit := cl }
  else if key = ascii "ELIST" then some { is with ELIST := runesOf val }
  else if key = ascii "PREFIX" then
    if val.length < 4 then some is
    else
      match goIndexByte 41 val with
      | none => some is
      | some idx =>
        if idx = val.length - 1 then some is
        else if idx = 0 then none
        else
          let letters := runesOf ((val.take idx).drop 1)
          let sigils := runesOf (val.drop (idx + 1))
          if letters.length ≠ sigils.length then some is
          else
            let pf := (letters.zip sigils).foldl (fun p e => mapInsert e.1 e.2 p) is.Pfx
            some { is with Pfx := pf }
  else if key = ascii "TARGMAX" then
    match splitPrefixNum val with
    | none => none
    | some m => some { is with TargMax := m }
  else if key = ascii "MAXLIST" then
    match splitPrefixNum val with
    | none => none
    | some m =>
      let ml := m.foldl
        (fun ml e => (runesOf e.1).foldl (fun ml r => mapInsert r e.2 ml) ml)
        is.MaxList
      some { is with MaxList := ml }
  else if key = ascii "STATUSMSG" then some { is with StatusMsg := runesOf val }
  else some is

/-- Go `ISupport.Parse`.  `none` models a panic: either `m.Params[1:]` on
a message with no parameters, or a panic inside the option loop. -/
def ParseISupport (is : ISupport) (m : Message) : Option ISupport :=
  if m.Command ≠ RPL_ISUPPORT then some is
  else if m.Params = [] then none
  else (m.Params.drop 1).foldlM applyOption is

/-- Go `Client.ChannelForMsg`, as a function of the client's `ISupport`.
`none` models a panic: `Params[1]`/`Params[2]` out of range, or
`[]rune(p)[0]` on an empty parameter. -/
def ChannelForMsg (is : ISupport) (m : Message) : Option (List Nat × Bool) :=
  if m.Params.length = 0 then some ([], false)
  else if m.Command = ascii "INVITE" ∨ m.Command = RPL_CHANNELMODEIS ∨
          m.Command = RPL_BANLIST then
    match m.Params.get? 1 with
    | some p => some (p, true)
    | none => none
  else if m.Command = RPL_NAMEREPLY then
    match m.Params.get? 2 with
    | some p => some (p, true)
    | none => none
  else
    let p0 := m.Params.getD 0 []
    if p0 = [] then none
    else if inRunes is.ChanTypes ((runesOf p0).getD 0 0) then some (p0, true)
    else if IsNumeric m ∧ 1 < m.Params.length then
      let p1 := m.Params.getD 1 []
      if p1 = [] then none
      else if inRunes is.ChanTypes ((runesOf p1).getD 0 0) then some (p1, true)
      else some ([], false)
    else some ([], false)

/-! ## `SplitMessage` -/

/-- The break condition of the rune-boundary adjustment loop in
`SplitMessage`: Go breaks when
`r, size := utf8.DecodeLastRuneInString(s[:pos])` satisfies
`r != utf8.RuneError || size != 1`. -/
def boundaryOK (s : List Nat) (pos : Nat) : Bool :=
  let p := decodeLastRune (s.take pos)
  !(p.1 == RErr && p.2 == 1)

/-- The upward phase of the adjustment loop (`dir = 1`), entered after the
downward phase reached position 0: advance until the break condition
holds.  The fuel `s.length + 1 - pos` provably suffices: past
`s.length`, `s.take pos` no longer changes, and Go would slice out of
range there (only reachable on invalid UTF-8, behind the
`utf8.ValidString` guard). -/
def splitUpAux (s : List Nat) : Nat → Nat → Nat
| 0, pos => pos
| f + 1, pos =>
  if boundaryOK s pos then pos
  else if s.length ≤ pos then pos
  else splitUpAux s f (pos + 1)

/-- Upward adjustment starting at `pos`. -/
def splitUpAdj (s : List Nat) (pos : Nat) : Nat :=
  splitUpAux s (s.length + 1 - pos) pos

/-- The adjustment loop of `SplitMessage` (starting with `dir = -1`):
retreat while the cut splits a rune; on reaching position 0, set
`pos = 1`, flip `dir`, and advance. -/
def splitDownAdj (s : List Nat) : Nat → Nat
| 0 => 0
| pos + 1 =>
  if boundaryOK s (pos + 1) then pos + 1
  else if pos = 0 then splitUpAdj s 1
  else splitDownAdj s pos

/-- The `for len(s) > n` loop of `SplitMessage`, with byte budget
`mp + 1` (the caller's budget is always ≥ 1).  Fuel `s.length`
suffices: every iteration removes at least one byte (either the cut
position is ≥ 1, or the cut position is 0, in which case the first byte
is a space and is trimmed). -/
def splitLoopAux (mp : Nat) : Nat → List Nat → List (List Nat)
| 0, s => if s.length = 0 then [] else [s]
| f + 1, s =>
  if s.length ≤ mp + 1 then (if s.length = 0 then [] else [s])
  else
    s.take (splitDownAdj s ((lastIndexByte 32 (s.take (mp + 1))).getD (mp + 1))) ::
      splitLoopAux mp f (trimLeftSpace (s.drop
        (splitDownAdj s ((lastIndexByte 32 (s.take (mp + 1))).getD (mp + 1)))))

/-- The splitting loop of `SplitMessage` on the text portion. -/
def splitLoop (mp : Nat) (s : List Nat) : List (List Nat) :=
  splitLoopAux mp s.length s

/-- Go `SplitMessage`.  `n` is a Go `int` and may be negative.  When
`" :"` does not occur, Go computes `pl = 1` and slices `s[:1]`/`s[1:]`;
on the empty string (reachable only with `n ≤ 0`) that slice panics in
Go, while this embedding returns `[]` — no claim depends on that corner. -/
def SplitMessage (s : List Nat) (n : Int) : List (List Nat) :=
  if (s.length : Int) < n ∨ validUTF8 s = false then [s]
  else
    let pl : Nat := match goIndex2 32 58 s with
      | some i => i + 2
      | none => 1
    let rep := s.take pl
    let rest := s.drop pl
    let m : Nat := if n - (pl : Int) ≤ 0 then 1 else (n - (pl : Int)).toNat
    (splitLoop (m - 1) rest).map (fun q => rep ++ q)

/-! ## General lemmas about the string primitives -/

theorem inStrings_iff (l : List (List Nat)) (s : List Nat) :
    inStrings l s = true ↔ s ∈ l := by
  induction l with
  | nil => simp [inStrings]
  | cons e t ih =>
    by_cases h : e = s
    · subst h; simp [inStrings]
    · have h' : ¬s = e := fun hs => h hs.symm
      simp [inStrings, h, ih, h']

theorem goIndex2_spec (a b : Nat) :
    ∀ s i, goIndex2 a b s = some i →
      i + 2 ≤ s.length ∧ s.getD i 0 = a ∧ s.getD (i + 1) 0 = b
  | [], i => by simp [goIndex2]
  | [x], i => by simp [goIndex2]
  | x :: y :: rest, i => by
    intro h
    rw [goIndex2] at h
    by_cases hab : x = a ∧ y = b
    · rw [if_pos hab] at h
      injection h with h
      subst h
      have hl : (x :: y :: rest).length = rest.length + 2 := by simp
      exact ⟨by omega, by simp [hab.1], by simp [hab.2]⟩
    · rw [if_neg hab] at h
      rcases Option.map_eq_some'.mp h with ⟨j, hj, rfl⟩
      obtain ⟨h1, h2, h3⟩ := goIndex2_spec a b (y :: rest) j hj
      have hl : (x :: y :: rest).length = rest.length + 2 := by simp
      have hl' : (y :: rest).length = rest.length + 1 := by simp
      refine ⟨by omega, by simpa using h2, by simpa using h3⟩

theorem goSplitB_of_not_mem {sep : Nat} :
    ∀ {s : List Nat}, sep ∉ s → goSplitB sep s = [s]
  | [], _ => rfl
  | b :: rest, h => by
    have hb : b ≠ sep := fun hb => h (hb ▸ List.mem_cons_self b rest)
    have hr : sep ∉ rest := fun hr => h (List.mem_cons_of_mem b hr)
    rw [goSplitB, if_neg hb, goSplitB_of_not_mem hr]

theorem goSplitB_append_sep {sep : Nat} :
    ∀ {p : List Nat}, sep ∉ p → ∀ t, goSplitB sep (p ++ sep :: t) = p :: goSplitB sep t
  | [], _, t => by simp [goSplitB]
  | b :: rest, h, t => by
    have hb : b ≠ sep := fun hb => h (hb ▸ List.mem_cons_self b rest)
    have hr : sep ∉ rest := fun hr => h (List.mem_cons_of_mem b hr)
    have ih := goSplitB_append_sep hr t
    rw [List.cons_append, goSplitB, if_neg hb, ih]

theorem goSplitB_ne_nil (sep : Nat) : ∀ s, goSplitB sep s ≠ []
  | [] => by simp [goSplitB]
  | b :: rest => by
    rw [goSplitB]
    split
    · simp
    · split <;> simp_all

/-! ## C3: parameter decoding -/

/-- The claim's description of the tokens before the `" :"` separator:
the space-separated tokens of the prefix, with the empty prefix having no
tokens. -/
def specTokens (l : List Nat) : List (List Nat) :=
  if l = [] then [] else goSplitB 32 l

/-- The parameter decoding exactly as the claim states it: empty → empty
sequence; leading `':'` → single right-trimmed remainder; otherwise split
at the first `" :"` when present, else space-separated tokens of the
whole string. -/
def paramsSpecModel (p : List Nat) : List (List Nat) :=
  if p = [] then []
  else if p.getD 0 0 = 58 then [trimRightSpaces (p.drop 1)]
  else
    match goIndex2 32 58 p with
    | none => goSplitB 32 p
    | some idx => specTokens (p.take idx) ++ [trimRightSpaces (p.drop (idx + 2))]

/-- C3: `parseParams` decodes the parameter portion exactly as the claim
describes (a refinement statement: the code function equals the model
written from the claim's words, on all byte strings). -/
theorem parseParams_matches_spec (p : List Nat) : parseParams p = paramsSpecModel p := by
  match p with
  | [] => rfl
  | b :: rest =>
    by_cases hb : b = 58
    · subst hb
      cases rest with
      | nil => simp [parseParams, paramsSpecModel, trimRightSpaces]
      | cons x xs => simp [parseParams, paramsSpecModel]
    · rw [parseParams, paramsSpecModel]
      simp only [if_neg hb, List.getD_cons_zero, reduceCtorEq, if_false]
      cases hidx : goIndex2 32 58 (b :: rest) with
      | none => simp
      | some idx =>
        have hlen := (goIndex2_spec 32 58 (b :: rest) idx hidx).1
        have hlen' : idx + 2 ≤ rest.length + 1 := by simpa using hlen
        have hlt : idx < (b :: rest).length := by simp; omega
        have htk : ((b :: rest).take idx).length = idx := by
          simp [List.length_take]
          omega
        simp only [if_pos hlt, htk]
        by_cases h0 : idx = 0
        · subst h0
          simp [specTokens]
        · have : (b :: rest).take idx ≠ [] := by
            intro hnil
            rw [hnil] at htk
            simp at htk
            omega
          simp [specTokens, this, Nat.pos_of_ne_zero h0]

/-! ## C4: the registration-complete predicate -/

/-- C4: `Client.Connected` is true iff the recorded registration numerics
contain `ERR_NOMOTD` or all four of `RPL_WELCOME`, `RPL_YOURHOST`,
`RPL_CREATED`, `RPL_MYINFO`; every other set yields false. -/
theorem connected_iff (connected : List (List Nat)) :
    ClientConnected connected = true ↔
      (ERR_NOMOTD ∈ connected ∨
        (RPL_WELCOME ∈ connected ∧ RPL_YOURHOST ∈ connected ∧
         RPL_CREATED ∈ connected ∧ RPL_MYINFO ∈ connected)) := by
  simp [ClientConnected, inStrings_iff, and_assoc]

/-! ## C6: integer-valued ISUPPORT tokens -/

/-- C6, counterexample: the token `MODES=6=7` has the value `6=7` (the
text after the first `=`), which does not parse as an integer, yet
`ISupport.Parse` sets `Modes` to 6: Go's `pad` truncates the
`strings.Split` result to two fields, so the part between the first and
second `=` is what gets parsed. -/
theorem isupport_int_token_counterexample :
    (goAtoi (ascii "6=7")).2 = false ∧
    applyOption NewISupport (ascii "MODES=6=7") = some { NewISupport with Modes := 6 } ∧
    NewISupport.Modes = 3 := by decide

/-- C6, amended: for an integer-valued token whose value — the second
element of the `=`-split padded/truncated to two fields, i.e. the text
between the first and second `=` (or the end) — does not parse as an
integer, the token leaves the `ISupport` record entirely unchanged. -/
theorem isupport_int_token_failure_noop (is : ISupport) (opt : List Nat)
    (hk : (pad (goSplitB 61 opt) 2).getD 0 [] ∈
      [ascii "MODES", ascii "NICKLEN", ascii "CHANNELLEN", ascii "TOPICLEN",
       ascii "MONITOR", ascii "MAXCHANNELS", ascii "MAXBANS", ascii "KICKLEN",
       ascii "CHIDLEN", ascii "SILENCE", ascii "AWAYLEN", ascii "WATCH",
       ascii "MAXTARGETS"])
    (hv : (goAtoi ((pad (goSplitB 61 opt) 2).getD 1 [])).2 = false) :
    applyOption is opt = some is := by
  have hki : ((pad (goSplitB 61 opt) 2).getD 0 [] = ascii "MODES" ∨
      (pad (goSplitB 61 opt) 2).getD 0 [] = ascii "NICKLEN" ∨
      (pad (goSplitB 61 opt) 2).getD 0 [] = ascii "CHANNELLEN" ∨
      (pad (goSplitB 61 opt) 2).getD 0 [] = ascii "TOPICLEN" ∨
      (pad (goSplitB 61 opt) 2).getD 0 [] = ascii "MONITOR" ∨
      (pad (goSplitB 61 opt) 2).getD 0 [] = ascii "MAXCHANNELS" ∨
      (pad (goSplitB 61 opt) 2).getD 0 [] = ascii "MAXBANS" ∨
      (pad (goSplitB 61 opt) 2).getD 0 [] = ascii "KICKLEN" ∨
      (pad (goSplitB 61 opt) 2).getD 0 [] = ascii "CHIDLEN" ∨
      (pad (goSplitB 61 opt) 2).getD 0 [] = ascii "SILENCE" ∨
      (pad (goSplitB 61 opt) 2).getD 0 [] = ascii "AWAYLEN" ∨
      (pad (goSplitB 61 opt) 2).getD 0 [] = ascii "WATCH" ∨
      (pad (goSplitB 61 opt) 2).getD 0 [] = ascii "MAXTARGETS") := by
    simpa using hk
  have hkb : ¬((pad (goSplitB 61 opt) 2).getD 0 [] = ascii "EXCEPTS" ∨
      (pad (goSplitB 61 opt) 2).getD 0 [] = ascii "INVEX" ∨
      (pad (goSplitB 61 opt) 2).getD 0 [] = ascii "KNOCK" ∨
      (pad (goSplitB 61 opt) 2).getD 0 [] = ascii "ETRACE" ∨
      (pad (goSplitB 61 opt) 2).getD 0 [] = ascii "CPRIVMSG" ∨
      (pad (goSplitB 61 opt) 2).getD 0 [] = ascii "CNOTICE" ∨
      (pad (goSplitB 61 opt) 2).getD 0 [] = ascii "FNC") := by
    rcases hki with h | h | h | h | h | h | h | h | h | h | h | h | h <;> rw [h] <;> decide
  simp only [applyOption]
  rw [if_neg hkb, if_pos hki, hv]
  simp

/-- Witness for the amended C6 at a concrete input. -/
theorem isupport_int_token_failure_noop_witness :
    applyOption NewISupport (ascii "MODES=abc") = some NewISupport :=
  isupport_int_token_failure_noop NewISupport (ascii "MODES=abc")
    (by decide) (by decide)

/-! ## C7: CTCP decoding -/

/-- The claim's CTCP-payload shape: non-empty params whose last element
has length ≥ 2 and 0x01 as first and last byte. -/
def CtcpPayload (m : Message) : Prop :=
  ∃ s, m.Params.getLast? = some s ∧ 2 ≤ s.length ∧
    s.getD 0 0 = 1 ∧ s.getD (s.length - 1) 0 = 1

theorem isCTCP_iff (m : Message) : IsCTCP m = true ↔ CtcpPayload m := by
  rw [IsCTCP]
  cases h : m.Params.getLast? with
  | none => simp [CtcpPayload, h]
  | some s =>
    by_cases h2 : s.length < 2
    · simp only [if_pos h2, CtcpPayload, h]
      constructor
      · intro hf; exact absurd hf (by simp)
      · rintro ⟨s', hs', hlen, -⟩
        injection hs' with hs'
        subst hs'
        omega
    · simp only [if_neg h2, CtcpPayload, h]
      constructor
      · intro hb
        have hb' := hb
        rw [Bool.and_eq_true, beq_iff_eq, beq_iff_eq] at hb'
        exact ⟨s, rfl, by omega, hb'.1, hb'.2⟩
      · rintro ⟨s', hs', -, h1, hl⟩
        injection hs' with hs'
        subst hs'
        rw [Bool.and_eq_true, beq_iff_eq, beq_iff_eq]
        exact ⟨h1, hl⟩

/-- C7: `Message.CTCP` fails exactly when the message does not carry a
CTCP payload; on success the result's command is the first
space-separated token of the last parameter with the 0x01 sentinels
stripped, and its params are the remaining tokens. -/
theorem ctcp_decode_spec (m : Message) :
    (MessageCTCP m = none ↔ ¬CtcpPayload m) ∧
    (∀ c, MessageCTCP m = some c →
      c.Command = (goSplitB 32 (((m.Params.getLast?.getD []).drop 1).dropLast)).getD 0 [] ∧
      c.Params = (goSplitB 32 (((m.Params.getLast?.getD []).drop 1).dropLast)).drop 1) := by
  have hsome : IsCTCP m = true →
      MessageCTCP m = some ⟨((m.Params.getLast?.getD []).drop 1).dropLast,
        (goSplitB 32 (((m.Params.getLast?.getD []).drop 1).dropLast)).getD 0 [],
        (goSplitB 32 (((m.Params.getLast?.getD []).drop 1).dropLast)).drop 1⟩ := by
    intro h
    obtain ⟨s, hs, hlen, -, -⟩ := (isCTCP_iff m).mp h
    have hgd : m.Params.getLast?.getD [] = s := by rw [hs]; rfl
    have hdrop : ∀ l : List (List Nat), (if 1 < l.length then l.drop 1 else []) = l.drop 1 := by
      intro l
      by_cases h1 : 1 < l.length
      · rw [if_pos h1]
      · rw [if_neg h1]
        exact (List.drop_eq_nil_of_le (by omega)).symm
    rw [MessageCTCP, if_pos h, ParseCTCP, hgd, if_neg (by omega)]
    simp only [hdrop]
  constructor
  · by_cases h : IsCTCP m = true
    · rw [hsome h]
      simp [(isCTCP_iff m).mp h]
    · rw [MessageCTCP, if_neg h]
      have hnc : ¬CtcpPayload m := fun hc => h ((isCTCP_iff m).mpr hc)
      simp [hnc]
  · intro c hc
    by_cases h : IsCTCP m = true
    · rw [hsome h] at hc
      injection hc with hc
      subst hc
      exact ⟨rfl, rfl⟩
    · rw [MessageCTCP, if_neg h] at hc
      exact absurd hc (by simp)

/-- The parsed form of `PRIVMSG #channel :\x01ACTION a test message\x01`. -/
def msgCtcpEx : Message :=
  ⟨ascii "PRIVMSG #channel :" ++ [1] ++ ascii "ACTION a test message" ++ [1],
   ⟨[], [], []⟩, ascii "PRIVMSG",
   [ascii "#channel", [1] ++ ascii "ACTION a test message" ++ [1]],
   ascii "PRIVMSG"⟩

/-- Witness for C7 at a concrete CTCP message. -/
theorem ctcp_decode_spec_witness :
    MessageCTCP msgCtcpEx =
      some ⟨ascii "ACTION a test message", ascii "ACTION",
            [ascii "a", ascii "test", ascii "message"]⟩ ∧
    (⟨ascii "ACTION a test message", ascii "ACTION",
      [ascii "a", ascii "test", ascii "message"]⟩ : CTCPMessage).Command =
      (goSplitB 32 (((msgCtcpEx.Params.getLast?.getD []).drop 1).dropLast)).getD 0 [] := by
  refine ⟨by decide, ?_⟩
  exact ((ctcp_decode_spec msgCtcpEx).2 _ (by decide)).1

/-! ## C8: totality of `Parse` -/

/-- C8: `Parse` is total on every non-empty input (it returns a message
with no out-of-bounds access, for arbitrary bytes), and the empty string
is the one input on which it faults (`s[0]` is read unconditionally). -/
theorem parse_total :
    (∀ s : List Nat, s ≠ [] → ∃ m, goParse s = some m) ∧ goParse [] = none := by
  constructor
  · intro s hs
    match s with
    | b :: t =>
      by_cases hb : b = 58
      · exact ⟨_, by rw [goParse, if_pos hb]⟩
      · exact ⟨_, by rw [goParse, if_neg hb]⟩
  · rfl

/-- Witness for C8 at a concrete input. -/
theorem parse_total_witness : ∃ m, goParse (ascii "QUIT") = some m :=
  parse_total.1 (ascii "QUIT") (by decide)

/-! ## C9: `ISupport.Parse` is not total -/

theorem spnAux_none :
    ∀ (l : List (List Nat)) (acc : List (List Nat × Int)) (e : List Nat),
      e ∈ l → (58 : Nat) ∉ e → spnAux l acc = none := by
  intro l
  induction l with
  | nil => intro acc e he; exact absurd he (by simp)
  | cons x t ih =>
    intro acc e he h58
    rcases List.mem_cons.mp he with rfl | he'
    · rw [spnAux, goSplitB_of_not_mem h58]
    · rw [spnAux]
      cases hsp : goSplitB 58 x with
      | nil => rfl
      | cons p0 ps =>
        cases ps with
        | nil => rfl
        | cons p1 ps' => exact ih _ e he' h58

/-- The parsed form of `:irc.example.net 005 nick TARGMAX`. -/
def msg005Ex : Message :=
  ⟨ascii ":irc.example.net 005 nick TARGMAX",
   ⟨[], [], ascii "irc.example.net"⟩, ascii "005",
   [ascii "nick", ascii "TARGMAX"], ascii "005"⟩

/-- C9: `ISupport.Parse` faults on reachable inputs: any TARGMAX,
CHANLIMIT, or MAXLIST value containing an entry without a `':'`
separator makes `splitPrefixNum` index `parts[1]` out of bounds
(modelled as `none`), and a full 005 message carrying a bare `TARGMAX`
token (whose value pads to `""`) drives `ISupport.Parse` into that
fault. -/
theorem isupport_parse_oob :
    (∀ (v e : List Nat), e ∈ goSplitB 44 v → (58 : Nat) ∉ e →
      splitPrefixNum v = none) ∧
    goParse (ascii ":irc.example.net 005 nick TARGMAX") = some msg005Ex ∧
    ParseISupport NewISupport msg005Ex = none := by
  refine ⟨?_, by decide, by decide⟩
  intro v e he h58
  exact spnAux_none _ _ e he h58

/-- Witness for C9's universal part at a concrete value. -/
theorem isupport_parse_oob_witness : splitPrefixNum (ascii "PRIVMSG:55,NOTICE") = none :=
  isupport_parse_oob.1 (ascii "PRIVMSG:55,NOTICE") (ascii "NOTICE")
    (by decide) (by decide)

/-! ## C10: `ChannelForMsg` shape preconditions -/

/-- `INVITE` with a single parameter (faults in Go: `m.Params[1]`). -/
def msgInviteOne : Message :=
  ⟨ascii "INVITE x", ⟨[], [], []⟩, ascii "INVITE", [ascii "x"], ascii "INVITE"⟩

/-- The parsed form of `FOO :` — one parameter, the empty string. -/
def msgFooEmpty : Message :=
  ⟨ascii "FOO :", ⟨[], [], []⟩, ascii "FOO", [[]], ascii "FOO"⟩

/-- C10: `ChannelForMsg` returns without fault whenever all parameters
are non-empty and numerous enough for the command (≥ 2 for INVITE,
RPL_CHANNELMODEIS, RPL_BANLIST; ≥ 3 for RPL_NAMEREPLY); but it faults
(`none`, an out-of-bounds access in Go) on INVITE with one parameter and
on a message, parsed from a line ending in `" :"`, whose first parameter
is the empty string. -/
theorem channelForMsg_shape :
    (∀ (is : ISupport) (m : Message),
      (∀ p ∈ m.Params, p ≠ []) →
      ((m.Command = ascii "INVITE" ∨ m.Command = RPL_CHANNELMODEIS ∨
        m.Command = RPL_BANLIST) → 2 ≤ m.Params.length) →
      (m.Command = RPL_NAMEREPLY → 3 ≤ m.Params.length) →
      ∃ r, ChannelForMsg is m = some r) ∧
    ChannelForMsg NewISupport msgInviteOne = none ∧
    goParse (ascii "FOO :") = some msgFooEmpty ∧
    ChannelForMsg NewISupport msgFooEmpty = none := by
  refine ⟨?_, by decide, by decide, by decide⟩
  intro is m hne hc2 hc3
  by_cases h0 : m.Params.length = 0
  · exact ⟨_, by rw [ChannelForMsg, if_pos h0]⟩
  rw [ChannelForMsg, if_neg h0]
  by_cases hgrp : m.Command = ascii "INVITE" ∨ m.Command = RPL_CHANNELMODEIS ∨
      m.Command = RPL_BANLIST
  · rw [if_pos hgrp]
    have h2 := hc2 hgrp
    cases hq : m.Params.get? 1 with
    | none =>
      have := List.get?_eq_none.mp hq
      omega
    | some p => exact ⟨_, rfl⟩
  rw [if_neg hgrp]
  by_cases h353 : m.Command = RPL_NAMEREPLY
  · rw [if_pos h353]
    have h3 := hc3 h353
    cases hq : m.Params.get? 2 with
    | none =>
      have := List.get?_eq_none.mp hq
      omega
    | some p => exact ⟨_, rfl⟩
  rw [if_neg h353]
  have hp0 : m.Params.getD 0 [] ∈ m.Params := by
    cases hP : m.Params with
    | nil => rw [hP] at h0; simp at h0
    | cons q qs => simp
  have hp0ne : m.Params.getD 0 [] ≠ [] := hne _ hp0
  rw [if_neg hp0ne]
  by_cases hin : inRunes is.ChanTypes ((runesOf (m.Params.getD 0 [])).getD 0 0) = true
  · rw [if_pos hin]
    exact ⟨_, rfl⟩
  rw [if_neg hin]
  by_cases hnum : IsNumeric m = true ∧ 1 < m.Params.length
  · rw [if_pos hnum]
    have hp1 : m.Params.getD 1 [] ∈ m.Params := by
      have h1 := hnum.2
      cases hP : m.Params with
      | nil => rw [hP] at h0; simp at h0
      | cons q qs =>
        rw [hP] at h1
        cases qs with
        | nil => simp at h1
        | cons q' qs' => simp
    have hp1ne : m.Params.getD 1 [] ≠ [] := hne _ hp1
    rw [if_neg hp1ne]
    by_cases hin1 : inRunes is.ChanTypes ((runesOf (m.Params.getD 1 [])).getD 0 0) = true
    · rw [if_pos hin1]
      exact ⟨_, rfl⟩
    · rw [if_neg hin1]
      exact ⟨_, rfl⟩
  · rw [if_neg hnum]
    exact ⟨_, rfl⟩

/-- Witness for C10's universal part at a concrete INVITE message. -/
theorem channelForMsg_shape_witness :
    ∃ r, ChannelForMsg NewISupport
      ⟨ascii "INVITE bob #chan", ⟨[], [], []⟩, ascii "INVITE",
       [ascii "bob", ascii "#chan"], ascii "INVITE"⟩ = some r :=
  channelForMsg_shape.1 NewISupport _ (by decide) (by decide) (by decide)

/-! ## C5: the `name:int[,name:int…]` grammar -/

/-- A well-formed entry of the `name:int` grammar: the name contains
neither `':'` nor `','`, the integer part is a (possibly empty) digit
string whose value fits in an int64. -/
def entryOK (e : List Nat × List Nat) : Prop :=
  (58 : Nat) ∉ e.1 ∧ (44 : Nat) ∉ e.1 ∧
  (∀ d ∈ e.2, 48 ≤ d ∧ d ≤ 57) ∧ decValue e.2 < 9223372036854775808

instance (e : List Nat × List Nat) : Decidable (entryOK e) := by
  unfold entryOK
  infer_instance

/-- The integer an entry denotes: −1 for an empty integer part
(“unlimited”), its decimal value otherwise. -/
def entryVal (ds : List Nat) : Int :=
  if ds = [] then -1 else (decValue ds : Int)

/-- Encode entries as a `name:int[,name:int…]` value list. -/
def encodePairs : List (List Nat × List Nat) → List Nat
| [] => []
| [e] => e.1 ++ 58 :: e.2
| e :: rest => e.1 ++ 58 :: e.2 ++ 44 :: encodePairs rest

theorem foldl_step_le (ds : List Nat) :
    ∀ acc : Nat, acc ≤ ds.foldl (fun a d => a * 10 + (d - 48)) acc := by
  induction ds with
  | nil => intro acc; simp
  | cons d rest ih =>
    intro acc
    calc acc ≤ acc * 10 + (d - 48) := by omega
    _ ≤ rest.foldl (fun a d => a * 10 + (d - 48)) (acc * 10 + (d - 48)) := ih _

theorem parseUintAux_digits (ds : List Nat) :
    ∀ acc : Nat, (∀ d ∈ ds, 48 ≤ d ∧ d ≤ 57) →
      ds.foldl (fun a d => a * 10 + (d - 48)) acc < 9223372036854775808 →
      parseUintAux ds acc = (ds.foldl (fun a d => a * 10 + (d - 48)) acc, true) := by
  induction ds with
  | nil => intro acc _ _; rfl
  | cons d rest ih =>
    intro acc hd hb
    have hdd := hd d (by simp)
    have hstep : rest.foldl (fun a d => a * 10 + (d - 48)) (acc * 10 + (d - 48)) =
        (d :: rest).foldl (fun a d => a * 10 + (d - 48)) acc := by simp
    have hmono : acc * 10 + (d - 48) ≤
        (d :: rest).foldl (fun a d => a * 10 + (d - 48)) acc := by
      rw [← hstep]; exact foldl_step_le rest _
    rw [parseUintAux, if_neg (by omega), if_neg (by omega), if_neg (by omega)]
    rw [ih _ (fun x hx => hd x (by simp [hx])) (by rw [hstep]; exact hb), hstep]

theorem goAtoi_digits (ds : List Nat) (hne : ds ≠ [])
    (hd : ∀ d ∈ ds, 48 ≤ d ∧ d ≤ 57)
    (hb : decValue ds < 9223372036854775808) :
    goAtoi ds = ((decValue ds : Int), true) := by
  match ds with
  | b :: rest =>
    have hbd := hd b (by simp)
    have hb45 : ¬(b = 45 ∨ b = 43) := by omega
    have hb45x : ¬b = 45 := by omega
    have hpu : parseUintAux (b :: rest) 0 = (decValue (b :: rest), true) :=
      parseUintAux_digits (b :: rest) 0 hd hb
    have hlt : ¬(9223372036854775808 ≤ decValue (b :: rest)) := by omega
    simp only [goAtoi, if_neg hb45, hpu]
    simp [hb45x, hlt]

theorem spnAux_enc :
    ∀ (entries : List (List Nat × List Nat)) (acc : List (List Nat × Int)),
      (∀ e ∈ entries, entryOK e) →
      spnAux (entries.map (fun e => e.1 ++ 58 :: e.2)) acc =
        some (entries.foldl (fun m e => mapInsert e.1 (entryVal e.2) m) acc) := by
  intro entries
  induction entries with
  | nil => intro acc _; rfl
  | cons e t ih =>
    intro acc hok
    have he := hok e (by simp)
    have h58d : (58 : Nat) ∉ e.2 := by
      intro hmem
      have := he.2.2.1 58 hmem
      omega
    have hsp : goSplitB 58 (e.1 ++ 58 :: e.2) = [e.1, e.2] := by
      rw [goSplitB_append_sep he.1, goSplitB_of_not_mem h58d]
    have hnum : (if 0 < e.2.length then (goAtoi e.2).1 else -1) = entryVal e.2 := by
      by_cases h2 : e.2 = []
      · simp [h2, entryVal]
      · have hlp : 0 < e.2.length := List.length_pos.mpr h2
        rw [if_pos hlp, goAtoi_digits e.2 h2 he.2.2.1 he.2.2.2, entryVal, if_neg h2]
    simp only [List.map_cons, spnAux, hsp, hnum]
    rw [ih _ (fun x hx => hok x (by simp [hx]))]
    simp

theorem goSplitB_encodePairs :
    ∀ entries : List (List Nat × List Nat), entries ≠ [] →
      (∀ e ∈ entries, entryOK e) →
      goSplitB 44 (encodePairs entries) =
        entries.map (fun e => e.1 ++ 58 :: e.2) := by
  intro entries
  induction entries with
  | nil => intro h; exact absurd rfl h
  | cons e t ih =>
    intro _ hok
    have he := hok e (by simp)
    have h44 : (44 : Nat) ∉ e.1 ++ 58 :: e.2 := by
      intro hmem
      rcases List.mem_append.mp hmem with h1 | h2
      · exact he.2.1 h1
      · rcases List.mem_cons.mp h2 with h3 | h4
        · omega
        · have := he.2.2.1 44 h4
          omega
    cases t with
    | nil =>
      rw [encodePairs, goSplitB_of_not_mem h44]
      rfl
    | cons e' t' =>
      have henc : encodePairs (e :: e' :: t') =
          (e.1 ++ 58 :: e.2) ++ 44 :: encodePairs (e' :: t') := by
        rw [encodePairs]
        simp
      rw [henc, goSplitB_append_sep h44, ih (by simp) (fun x hx => hok x (by simp [hx]))]
      rfl

theorem assocLookup_mapInsert_self {α : Type} (k : List Nat) (v : α) :
    ∀ l, assocLookup k (mapInsert k v l) = some v := by
  intro l
  induction l with
  | nil => simp [mapInsert, assocLookup]
  | cons p t ih =>
    rw [mapInsert]
    by_cases h : p.1 = k
    · rw [if_pos h, assocLookup, if_pos h]
    · rw [if_neg h, assocLookup, if_neg h, ih]

theorem assocLookup_mapInsert_ne {α : Type} (k k' : List Nat) (v : α) (hne : k' ≠ k) :
    ∀ l, assocLookup k (mapInsert k' v l) = assocLookup k l := by
  intro l
  induction l with
  | nil => simp [mapInsert, assocLookup, hne]
  | cons p t ih =>
    rw [mapInsert]
    by_cases h : p.1 = k'
    · rw [if_pos h, assocLookup, assocLookup, if_neg (h ▸ hne), if_neg (h ▸ hne)]
    · rw [if_neg h, assocLookup, assocLookup, ih]

theorem assocLookup_foldl_not_mem :
    ∀ (es : List (List Nat × List Nat)) (acc : List (List Nat × Int)) (k : List Nat),
      k ∉ es.map Prod.fst →
      assocLookup k (es.foldl (fun m e => mapInsert e.1 (entryVal e.2) m) acc) =
        assocLookup k acc := by
  intro es
  induction es with
  | nil => intro acc k _; rfl
  | cons e t ih =>
    intro acc k hk
    have hk1 : e.1 ≠ k := by
      intro h
      exact hk (by simp [← h])
    have hk2 : k ∉ t.map Prod.fst := fun h => hk (by simp [h])
    rw [List.foldl_cons, ih _ _ hk2, assocLookup_mapInsert_ne _ _ _ hk1]

theorem assocLookup_foldl_mem :
    ∀ (es : List (List Nat × List Nat)) (acc : List (List Nat × Int))
      (e : List Nat × List Nat),
      (es.map Prod.fst).Nodup → e ∈ es →
      assocLookup e.1 (es.foldl (fun m e => mapInsert e.1 (entryVal e.2) m) acc) =
        some (entryVal e.2) := by
  intro es
  induction es with
  | nil => intro acc e _ he; exact absurd he (by simp)
  | cons x t ih =>
    intro acc e hnd he
    rw [List.map_cons, List.nodup_cons] at hnd
    rcases List.mem_cons.mp he with rfl | he'
    · rw [List.foldl_cons, assocLookup_foldl_not_mem t _ _ hnd.1,
        assocLookup_mapInsert_self]
    · exact ih _ e hnd.2 he'

/-- C5: for every well-formed `name:int[,name:int…]` value list with
distinct names, `splitPrefixNum` (the decoder used by TARGMAX,
CHANLIMIT and MAXLIST) maps each listed name to its integer, with −1
for an empty integer part; concretely, `TARGMAX=PRIVMSG:55,NOTICE:`
yields {PRIVMSG ↦ 55, NOTICE ↦ −1} and `CHANLIMIT=#&:2,!:3`
distributes over the prefix runes to {'#' ↦ 2, '&' ↦ 2, '!' ↦ 3}. -/
theorem splitPrefixNum_grammar :
    (∀ entries : List (List Nat × List Nat), entries ≠ [] →
      (∀ e ∈ entries, entryOK e) → (entries.map Prod.fst).Nodup →
      ∃ mp, splitPrefixNum (encodePairs entries) = some mp ∧
        ∀ e ∈ entries, assocLookup e.1 mp = some (entryVal e.2)) ∧
    (applyOption NewISupport (ascii "TARGMAX=PRIVMSG:55,NOTICE:") =
      some { NewISupport with
             TargMax := [(ascii "PRIVMSG", 55), (ascii "NOTICE", -1)] } ∧
     assocLookup (ascii "PRIVMSG") [(ascii "PRIVMSG", (55 : Int)), (ascii "NOTICE", -1)] =
       some 55 ∧
     assocLookup (ascii "NOTICE") [(ascii "PRIVMSG", (55 : Int)), (ascii "NOTICE", -1)] =
       some (-1)) ∧
    ((applyOption NewISupport (ascii "CHANLIMIT=#&:2,!:3")).map ISupport.ChanLimit =
      some [(35, 2), (38, 2), (33, 3)] ∧
     assocLookup 35 [((35 : Nat), (2 : Int)), (38, 2), (33, 3)] = some 2 ∧
     assocLookup 38 [((35 : Nat), (2 : Int)), (38, 2), (33, 3)] = some 2 ∧
     assocLookup 33 [((35 : Nat), (2 : Int)), (38, 2), (33, 3)] = some 3) := by
  refine ⟨?_, by decide, by decide⟩
  intro entries hne hok hnd
  refine ⟨entries.foldl (fun m e => mapInsert e.1 (entryVal e.2) m) [], ?_, ?_⟩
  · rw [splitPrefixNum, goSplitB_encodePairs entries hne hok, spnAux_enc entries [] hok]
  · intro e he
    exact assocLookup_foldl_mem entries [] e hnd he

/-- Witness for C5's universal part at a concrete entry list. -/
theorem splitPrefixNum_grammar_witness :
    ∃ mp, splitPrefixNum
        (encodePairs [(ascii "PRIVMSG", ascii "55"), (ascii "NOTICE", [])]) = some mp ∧
      ∀ e ∈ [(ascii "PRIVMSG", ascii "55"), (ascii "NOTICE", ([] : List Nat))],
        assocLookup e.1 mp = some (entryVal e.2) :=
  splitPrefixNum_grammar.1 _ (by decide) (by decide) (by decide)

/-! ## UTF-8 validity theory for C1 and C2 -/

/-- A complete, valid single-rune UTF-8 encoding (mirrors Go's `first`
and `acceptRanges` tables). -/
def validEnc : List Nat → Bool
| [b] => b < 0x80
| [b, c1] => 0xC2 ≤ b && b < 0xE0 && contB c1
| [b, c1, c2] => 0xE0 ≤ b && b < 0xF0 && acc3 b c1 && contB c2
| [b, c1, c2, c3] => 0xF0 ≤ b && b < 0xF5 && acc4 b c1 && contB c2 && contB c3
| _ => false

theorem validEnc_len {c : List Nat} (h : validEnc c = true) :
    1 ≤ c.length ∧ c.length ≤ 4 := by
  match c with
  | [] => simp [validEnc] at h
  | [_] => simp
  | [_, _] => simp
  | [_, _, _] => simp
  | [_, _, _, _] => simp
  | _ :: _ :: _ :: _ :: _ :: _ => simp [validEnc] at h

theorem decodeRune_cons_size (b : Nat) (rest : List Nat) :
    1 ≤ (decodeRune (b :: rest)).2 ∧ (decodeRune (b :: rest)).2 ≤ rest.length + 1 := by
  rw [decodeRune.eq_def]
  simp only []
  repeat' split
  all_goals simp_all

theorem decode_append_validEnc {c : List Nat} (h : validEnc c = true) (t : List Nat) :
    decodeRune (c ++ t) = ((decodeRune c).1, c.length) := by
  match c with
  | [b] =>
    have hb : b < 0x80 := by simpa [validEnc] using h
    simp [decodeRune, hb]
  | [b, c1] =>
    rw [validEnc] at h
    simp only [Bool.and_eq_true, decide_eq_true_eq] at h
    obtain ⟨⟨h1, h2⟩, h3⟩ := h
    simp [decodeRune, h3, if_neg (by omega : ¬b < 0x80), if_neg (by omega : ¬b < 0xC2),
      if_pos (by omega : b < 0xE0)]
  | [b, c1, c2] =>
    rw [validEnc] at h
    simp only [Bool.and_eq_true, decide_eq_true_eq] at h
    obtain ⟨⟨⟨h1, h2⟩, h3⟩, h4⟩ := h
    simp [decodeRune, h3, h4, if_neg (by omega : ¬b < 0x80), if_neg (by omega : ¬b < 0xC2),
      if_neg (by omega : ¬b < 0xE0), if_pos (by omega : b < 0xF0)]
  | [b, c1, c2, c3] =>
    rw [validEnc] at h
    simp only [Bool.and_eq_true, decide_eq_true_eq] at h
    obtain ⟨⟨⟨⟨h1, h2⟩, h3⟩, h4⟩, h5⟩ := h
    simp [decodeRune, h3, h4, h5, if_neg (by omega : ¬b < 0x80), if_neg (by omega : ¬b < 0xC2),
      if_neg (by omega : ¬b < 0xE0), if_neg (by omega : ¬b < 0xF0), if_pos (by omega : b < 0xF5)]
  | [] => simp [validEnc] at h
  | _ :: _ :: _ :: _ :: _ :: _ => simp [validEnc] at h

theorem decode_validEnc_head {c : List Nat} (h : validEnc c = true) (hc1 : c.length = 1) :
    (decodeRune c).1 < 0x80 := by
  match c with
  | [b] =>
    have hb : b < 0x80 := by simpa [validEnc] using h
    simp [decodeRune, hb]
  | [] => simp at hc1
  | _ :: _ :: _ => simp at hc1

theorem decode_validEnc_not_err {c : List Nat} (h : validEnc c = true) (t : List Nat) :
    ¬((decodeRune (c ++ t)).1 = RErr ∧ (decodeRune (c ++ t)).2 = 1) := by
  rw [decode_append_validEnc h t]
  rintro ⟨h1, h2⟩
  have hlen := validEnc_len h
  have hc1 : c.length = 1 := by simpa using h2
  have := decode_validEnc_head h hc1
  simp only at h1
  rw [h1] at this
  norm_num [RErr] at this

theorem decode_shape (b : Nat) (rest : List Nat)
    (h : ¬((decodeRune (b :: rest)).1 = RErr ∧ (decodeRune (b :: rest)).2 = 1)) :
    validEnc ((b :: rest).take (decodeRune (b :: rest)).2) = true := by
  rw [decodeRune.eq_def] at h ⊢
  simp only [] at h ⊢
  by_cases h1 : b < 0x80
  · simp_all [validEnc]
  rw [if_neg h1] at h ⊢
  by_cases h2 : b < 0xC2
  · simp_all
  rw [if_neg h2] at h ⊢
  by_cases h3 : b < 0xE0
  · rw [if_pos h3] at h ⊢
    match rest with
    | [] => simp_all
    | c1 :: r =>
      by_cases hc : contB c1 = true
      · simp_all [validEnc]
      · simp_all
  rw [if_neg h3] at h ⊢
  by_cases h4 : b < 0xF0
  · rw [if_pos h4] at h ⊢
    match rest with
    | [] => simp_all
    | [c1] => simp_all
    | c1 :: c2 :: r =>
      by_cases hc : (acc3 b c1 && contB c2) = true
      · simp_all [validEnc]
      · simp_all
  rw [if_neg h4] at h ⊢
  by_cases h5 : b < 0xF5
  · rw [if_pos h5] at h ⊢
    match rest with
    | [] => simp_all
    | [c1] => simp_all
    | [c1, c2] => simp_all
    | c1 :: c2 :: c3 :: r =>
      by_cases hc : (acc4 b c1 && contB c2 && contB c3) = true
      · simp_all [validEnc]
      · simp_all
  · simp_all

/-- A byte string that is a concatenation of valid rune encodings. -/
inductive Chunks : List Nat → Prop
| nil : Chunks []
| cons {c s : List Nat} : validEnc c = true → Chunks s → Chunks (c ++ s)

theorem chunks_append {a b : List Nat} (ha : Chunks a) (hb : Chunks b) :
    Chunks (a ++ b) := by
  induction ha with
  | nil => simpa using hb
  | cons hc _ ih =>
    rw [List.append_assoc]
    exact Chunks.cons hc ih

theorem chunks_decomp {s : List Nat} (h : Chunks s) (hne : s ≠ []) :
    ∃ c s', validEnc c = true ∧ Chunks s' ∧ s = c ++ s' := by
  cases h with
  | nil => exact absurd rfl hne
  | cons hc hs => exact ⟨_, _, hc, hs, rfl⟩

theorem chunks_rev_decomp {a : List Nat} (h : Chunks a) :
    a = [] ∨ ∃ a' c, Chunks a' ∧ validEnc c = true ∧ a = a' ++ c := by
  induction h with
  | nil => exact Or.inl rfl
  | cons hc hs ih =>
    rename_i c s
    right
    rcases ih with rfl | ⟨a', c', ha', hc', rfl⟩
    · exact ⟨[], c, Chunks.nil, hc, by simp⟩
    · exact ⟨c ++ a', c', Chunks.cons hc ha', hc', by simp⟩

theorem validAux_iff_chunks :
    ∀ (f : Nat) (s : List Nat), s.length ≤ f → (validAux f s = true ↔ Chunks s) := by
  intro f
  induction f with
  | zero =>
    intro s hs
    have hnil : s = [] := List.length_eq_zero.mp (by omega)
    subst hnil
    simp only [validAux]
    exact ⟨fun _ => Chunks.nil, fun _ => trivial⟩
  | succ f ih =>
    intro s hs
    match s with
    | [] =>
      simp only [validAux]
      exact ⟨fun _ => Chunks.nil, fun _ => trivial⟩
    | b :: rest =>
      rw [validAux]
      by_cases herr : (decodeRune (b :: rest)).1 = RErr ∧ (decodeRune (b :: rest)).2 = 1
      · rw [if_pos herr]
        constructor
        · intro hfalse; exact absurd hfalse (by simp)
        · intro hch
          obtain ⟨c, s', hc, hs', heq⟩ := chunks_decomp hch (by simp)
          rw [heq] at herr
          exact absurd herr (decode_validEnc_not_err hc s')
      · rw [if_neg herr]
        have henc := decode_shape b rest herr
        have hsz := decodeRune_cons_size b rest
        have hdl : ((b :: rest).drop (decodeRune (b :: rest)).2).length ≤ f := by
          simp only [List.length_drop]
          simp only [List.length_cons] at hs ⊢
          omega
        rw [ih _ hdl]
        constructor
        · intro hch
          have : Chunks ((b :: rest).take (decodeRune (b :: rest)).2 ++
              (b :: rest).drop (decodeRune (b :: rest)).2) := Chunks.cons henc hch
          simpa using this
        · intro hch
          obtain ⟨c, s', hc, hs', heq⟩ := chunks_decomp hch (by simp)
          have hdec : decodeRune (b :: rest) = ((decodeRune c).1, c.length) := by
            rw [heq]; exact decode_append_validEnc hc s'
          have hszc : (decodeRune (b :: rest)).2 = c.length := by rw [hdec]
          have : (b :: rest).drop (decodeRune (b :: rest)).2 = s' := by
            rw [hszc, heq, List.drop_left]
          rw [this]
          exact hs'

theorem validUTF8_iff_chunks (s : List Nat) : validUTF8 s = true ↔ Chunks s :=
  validAux_iff_chunks s.length s le_rfl

/-! ### Facts about the byte structure of valid encodings -/

theorem validEnc_head_big {c : List Nat} (h : validEnc c = true) (h2 : 2 ≤ c.length) :
    0xC2 ≤ c.getD 0 0 := by
  match c with
  | [b, c1] =>
    rw [validEnc] at h
    simp only [Bool.and_eq_true, decide_eq_true_eq] at h
    simpa using h.1.1
  | [b, c1, c2] =>
    rw [validEnc] at h
    simp only [Bool.and_eq_true, decide_eq_true_eq] at h
    have := h.1.1.1
    simp only [List.getD_cons_zero]
    omega
  | [b, c1, c2, c3] =>
    rw [validEnc] at h
    simp only [Bool.and_eq_true, decide_eq_true_eq] at h
    have := h.1.1.1.1
    simp only [List.getD_cons_zero]
    omega
  | [] => simp [validEnc] at h
  | [_] => simp at h2
  | _ :: _ :: _ :: _ :: _ :: _ => simp [validEnc] at h

theorem acc3_big {b c1 : Nat} (h : acc3 b c1 = true) : 0x80 ≤ c1 ∧ c1 ≤ 0xBF := by
  rw [acc3] at h
  split at h
  · simp only [Bool.and_eq_true, decide_eq_true_eq] at h; omega
  split at h
  · simp only [Bool.and_eq_true, decide_eq_true_eq] at h; omega
  · rw [contB] at h
    simp only [Bool.and_eq_true, decide_eq_true_eq] at h
    omega

theorem acc4_big {b c1 : Nat} (h : acc4 b c1 = true) : 0x80 ≤ c1 ∧ c1 ≤ 0xBF := by
  rw [acc4] at h
  split at h
  · simp only [Bool.and_eq_true, decide_eq_true_eq] at h; omega
  split at h
  · simp only [Bool.and_eq_true, decide_eq_true_eq] at h; omega
  · rw [contB] at h
    simp only [Bool.and_eq_true, decide_eq_true_eq] at h
    omega

theorem contB_big {b : Nat} (h : contB b = true) : 0x80 ≤ b ∧ b < 0xC0 := by
  rw [contB] at h
  simp only [Bool.and_eq_true, decide_eq_true_eq] at h
  exact h

theorem runeStart_of_lt {b : Nat} (h : b < 0x80) : runeStart b = true := by
  simp only [runeStart, contB, Bool.not_eq_true', Bool.and_eq_false_iff,
    decide_eq_false_iff_not]
  omega

theorem runeStart_of_ge {b : Nat} (h : 0xC0 ≤ b) : runeStart b = true := by
  simp only [runeStart, contB, Bool.not_eq_true', Bool.and_eq_false_iff,
    decide_eq_false_iff_not]
  omega

theorem runeStart_cont {b : Nat} (h : 0x80 ≤ b ∧ b < 0xC0) : runeStart b = false := by
  simp [runeStart, contB, h.1, h.2]

/-- In a valid multi-byte encoding every byte after the lead is a
continuation byte. -/
theorem validEnc_cont {c : List Nat} (h : validEnc c = true) :
    ∀ i, 1 ≤ i → i < c.length → 0x80 ≤ c.getD i 0 ∧ c.getD i 0 < 0xC0 := by
  intro i h1 hi
  match c with
  | [b] => simp at hi; omega
  | [b, c1] =>
    rw [validEnc] at h
    simp only [Bool.and_eq_true, decide_eq_true_eq] at h
    have hc := contB_big h.2
    simp only [List.length_cons, List.length_nil] at hi
    interval_cases i
    · simpa using hc
  | [b, c1, c2] =>
    rw [validEnc] at h
    simp only [Bool.and_eq_true] at h
    have hc1 := acc3_big h.1.2
    have hc2 := contB_big h.2
    simp only [List.length_cons, List.length_nil] at hi
    interval_cases i
    · simp only [List.getD_cons_succ, List.getD_cons_zero]; omega
    · simp only [List.getD_cons_succ, List.getD_cons_zero]; omega
  | [b, c1, c2, c3] =>
    rw [validEnc] at h
    simp only [Bool.and_eq_true] at h
    have hc1 := acc4_big h.1.1.2
    have hc2 := contB_big h.1.2
    have hc3 := contB_big h.2
    simp only [List.length_cons, List.length_nil] at hi
    interval_cases i
    · simp only [List.getD_cons_succ, List.getD_cons_zero]; omega
    · simp only [List.getD_cons_succ, List.getD_cons_zero]; omega
    · simp only [List.getD_cons_succ, List.getD_cons_zero]; omega
  | [] => simp [validEnc] at h
  | _ :: _ :: _ :: _ :: _ :: _ => simp [validEnc] at h

/-! ### The scan of `DecodeLastRuneInString` -/

theorem scan_hit {s : List Nat} (lim : Nat) {p : Nat}
    (h : runeStart (s.getD p 0) = true) : scanStart s lim p = some p := by
  cases p with
  | zero => rw [scanStart, if_pos h]
  | succ q => rw [scanStart, if_pos h]

theorem scan_step {s : List Nat} {lim p : Nat}
    (h : runeStart (s.getD (p + 1) 0) = false) (hp : ¬(p + 1 ≤ lim)) :
    scanStart s lim (p + 1) = scanStart s lim p := by
  rw [scanStart, if_neg (by simp only [h]; simp), if_neg hp]

theorem scan_none_at {s : List Nat} {lim : Nat}
    (h : runeStart (s.getD lim 0) = false) : scanStart s lim lim = none := by
  match lim with
  | 0 => rw [scanStart, if_neg (by simp only [h]; simp)]
  | q + 1 => rw [scanStart, if_neg (by simp only [h]; simp), if_pos le_rfl]

theorem getLast?_append_cons (a : List Nat) (x : Nat) (r : List Nat) :
    (a ++ x :: r).getLast? = (x :: r).getLast? := by
  induction a with
  | nil => rfl
  | cons y t ih =>
    rw [List.cons_append, ← ih]
    cases hte : t ++ x :: r with
    | nil => exact absurd hte (by simp)
    | cons z t' => rw [List.getLast?_cons_cons]

theorem getD_append_idx (a c : List Nat) (j : Nat) :
    (a ++ c).getD (a.length + j) 0 = c.getD j 0 := by
  rw [List.getD_append_right _ _ _ _ (by omega)]
  simp

/-- `DecodeLastRuneInString` at the end of a complete valid encoding
decodes exactly that encoding, whatever precedes it. -/
theorem decodeLastRune_append_validEnc {c : List Nat} (h : validEnc c = true)
    (a : List Nat) : decodeLastRune (a ++ c) = ((decodeRune c).1, c.length) := by
  have hdc := decode_append_validEnc h []
  rw [List.append_nil] at hdc
  match c, h with
  | [x], h =>
    have hx : x < 0x80 := by simpa [validEnc] using h
    have hlast : (a ++ [x]).getLast? = some x := by rw [getLast?_append_cons]; rfl
    simp only [decodeLastRune, hlast]
    rw [if_pos hx]
    simp [decodeRune, hx]
  | [x, y], h =>
    have hxge : (0xC2 : Nat) ≤ x := by simpa using validEnc_head_big h (by simp)
    have hy : (0x80 : Nat) ≤ y ∧ y < 0xC0 := by
      simpa using validEnc_cont h 1 le_rfl (by simp)
    have hlast : (a ++ [x, y]).getLast? = some y := by rw [getLast?_append_cons]; rfl
    have hL : (a ++ [x, y]).length = a.length + 2 := by simp
    have hgdx : (a ++ [x, y]).getD (a.length + 0) 0 = x := by
      rw [getD_append_idx]; rfl
    have hscan : scanStart (a ++ [x, y]) (a.length + 2 - 4) (a.length + 2 - 2) =
        some a.length := by
      rw [show a.length + 2 - 2 = a.length from by omega]
      refine scan_hit _ ?_
      rw [show a.length = a.length + 0 from rfl, hgdx]
      exact runeStart_of_ge (by omega)
    have hstart : dlrStart (a ++ [x, y]) = a.length := by
      rw [dlrStart, hL, if_neg (by omega), hscan]
    have hdrop : (a ++ [x, y]).drop a.length = [x, y] := List.drop_left a [x, y]
    have hsz : (decodeRune [x, y]).2 = 2 := by rw [hdc]; rfl
    simp only [decodeLastRune, hlast]
    rw [if_neg (show ¬y < 0x80 by omega), hstart, hdrop, hL, hsz, if_pos rfl]
    exact hdc
  | [x, y, z], h =>
    have hxge : (0xC2 : Nat) ≤ x := by simpa using validEnc_head_big h (by simp)
    have hy : (0x80 : Nat) ≤ y ∧ y < 0xC0 := by
      simpa using validEnc_cont h 1 le_rfl (by simp)
    have hz : (0x80 : Nat) ≤ z ∧ z < 0xC0 := by
      simpa using validEnc_cont h 2 (by omega) (by simp)
    have hlast : (a ++ [x, y, z]).getLast? = some z := by rw [getLast?_append_cons]; rfl
    have hL : (a ++ [x, y, z]).length = a.length + 3 := by simp
    have hgdx : (a ++ [x, y, z]).getD (a.length + 0) 0 = x := by
      rw [getD_append_idx]; rfl
    have hgdy : (a ++ [x, y, z]).getD (a.length + 1) 0 = y := by
      rw [getD_append_idx]; rfl
    have hscan : scanStart (a ++ [x, y, z]) (a.length + 3 - 4) (a.length + 3 - 2) =
        some a.length := by
      rw [show a.length + 3 - 2 = a.length + 1 from by omega]
      rw [scan_step (by rw [hgdy]; exact runeStart_cont hy) (by omega)]
      refine scan_hit _ ?_
      rw [show a.length = a.length + 0 from rfl, hgdx]
      exact runeStart_of_ge (by omega)
    have hstart : dlrStart (a ++ [x, y, z]) = a.length := by
      rw [dlrStart, hL, if_neg (by omega), hscan]
    have hdrop : (a ++ [x, y, z]).drop a.length = [x, y, z] := List.drop_left a [x, y, z]
    have hsz : (decodeRune [x, y, z]).2 = 3 := by rw [hdc]; rfl
    simp only [decodeLastRune, hlast]
    rw [if_neg (show ¬z < 0x80 by omega), hstart, hdrop, hL, hsz,
      if_pos (by omega : a.length + 3 = a.length + 3)]
    exact hdc
  | [x, y, z, w], h =>
    have hxge : (0xC2 : Nat) ≤ x := by simpa using validEnc_head_big h (by simp)
    have hy : (0x80 : Nat) ≤ y ∧ y < 0xC0 := by
      simpa using validEnc_cont h 1 le_rfl (by simp)
    have hz : (0x80 : Nat) ≤ z ∧ z < 0xC0 := by
      simpa using validEnc_cont h 2 (by omega) (by simp)
    have hw : (0x80 : Nat) ≤ w ∧ w < 0xC0 := by
      simpa using validEnc_cont h 3 (by omega) (by simp)
    have hlast : (a ++ [x, y, z, w]).getLast? = some w := by
      rw [getLast?_append_cons]; rfl
    have hL : (a ++ [x, y, z, w]).length = a.length + 4 := by simp
    have hgdx : (a ++ [x, y, z, w]).getD (a.length + 0) 0 = x := by
      rw [getD_append_idx]; rfl
    have hgdy : (a ++ [x, y, z, w]).getD (a.length + 1) 0 = y := by
      rw [getD_append_idx]; rfl
    have hgdz : (a ++ [x, y, z, w]).getD (a.length + 2) 0 = z := by
      rw [getD_append_idx]; rfl
    have hrz : runeStart ((a ++ [x, y, z, w]).getD (a.length + 1 + 1) 0) = false := by
      rw [show a.length + 1 + 1 = a.length + 2 from by omega, hgdz]
      exact runeStart_cont hz
    have hry : runeStart ((a ++ [x, y, z, w]).getD (a.length + 1) 0) = false := by
      rw [hgdy]; exact runeStart_cont hy
    have hscan : scanStart (a ++ [x, y, z, w]) (a.length + 4 - 4) (a.length + 4 - 2) =
        some a.length := by
      rw [show a.length + 4 - 2 = a.length + 1 + 1 from by omega]
      rw [scan_step hrz (by omega), scan_step hry (by omega)]
      refine scan_hit _ ?_
      rw [show a.length = a.length + 0 from rfl, hgdx]
      exact runeStart_of_ge (by omega)
    have hstart : dlrStart (a ++ [x, y, z, w]) = a.length := by
      rw [dlrStart, hL, if_neg (by omega), hscan]
    have hdrop : (a ++ [x, y, z, w]).drop a.length = [x, y, z, w] :=
      List.drop_left a [x, y, z, w]
    have hsz : (decodeRune [x, y, z, w]).2 = 4 := by rw [hdc]; rfl
    simp only [decodeLastRune, hlast]
    rw [if_neg (show ¬w < 0x80 by omega), hstart, hdrop, hL, hsz,
      if_pos (by omega : a.length + 4 = a.length + 4)]
    exact hdc
  | [], h => simp [validEnc] at h
  | _ :: _ :: _ :: _ :: _ :: _, h => simp [validEnc] at h

theorem dlrStart_rs2 {x : Nat} (hx : runeStart x = true) (a : List Nat) (y : Nat) :
    dlrStart (a ++ [x, y]) = a.length := by
  have hL : (a ++ [x, y]).length = a.length + 2 := by simp
  have hgdx : (a ++ [x, y]).getD (a.length + 0) 0 = x := by rw [getD_append_idx]; rfl
  rw [dlrStart, hL, if_neg (by omega),
    show a.length + 2 - 2 = a.length from by omega,
    scan_hit _ (by rw [show a.length = a.length + 0 from rfl, hgdx]; exact hx)]

theorem dlrStart_rs3 {x y : Nat} (hx : runeStart x = true) (hy : runeStart y = false)
    (a : List Nat) (z : Nat) : dlrStart (a ++ [x, y, z]) = a.length := by
  have hL : (a ++ [x, y, z]).length = a.length + 3 := by simp
  have hgdx : (a ++ [x, y, z]).getD (a.length + 0) 0 = x := by rw [getD_append_idx]; rfl
  have hgdy : (a ++ [x, y, z]).getD (a.length + 1) 0 = y := by rw [getD_append_idx]; rfl
  rw [dlrStart, hL, if_neg (by omega),
    show a.length + 3 - 2 = a.length + 1 from by omega,
    scan_step (by rw [hgdy]; exact hy) (by omega),
    scan_hit _ (by rw [show a.length = a.length + 0 from rfl, hgdx]; exact hx)]

theorem dlrStart_rs4 {x y z : Nat} (hx : runeStart x = true)
    (hy : runeStart y = false) (hz : runeStart z = false) (a : List Nat) (w : Nat) :
    dlrStart (a ++ [x, y, z, w]) = a.length := by
  have hL : (a ++ [x, y, z, w]).length = a.length + 4 := by simp
  have hgdx : (a ++ [x, y, z, w]).getD (a.length + 0) 0 = x := by rw [getD_append_idx]; rfl
  have hgdy : (a ++ [x, y, z, w]).getD (a.length + 1) 0 = y := by rw [getD_append_idx]; rfl
  have hgdz : (a ++ [x, y, z, w]).getD (a.length + 1 + 1) 0 = z := by
    rw [show a.length + 1 + 1 = a.length + 2 from by omega, getD_append_idx]; rfl
  rw [dlrStart, hL, if_neg (by omega),
    show a.length + 4 - 2 = a.length + 1 + 1 from by omega,
    scan_step (by rw [hgdz]; exact hz) (by omega),
    scan_step (by rw [hgdy]; exact hy) (by omega),
    scan_hit _ (by rw [show a.length = a.length + 0 from rfl, hgdx]; exact hx)]

theorem dlrStart_cont5 {v1 v2 v3 : Nat} (h1 : runeStart v1 = false)
    (h2 : runeStart v2 = false) (h3 : runeStart v3 = false)
    (a : List Nat) (u x : Nat) : dlrStart (a ++ [u, v1, v2, v3, x]) = a.length := by
  have hL : (a ++ [u, v1, v2, v3, x]).length = a.length + 5 := by simp
  have hgd1 : (a ++ [u, v1, v2, v3, x]).getD (a.length + 1) 0 = v1 := by
    rw [getD_append_idx]; rfl
  have hgd2 : (a ++ [u, v1, v2, v3, x]).getD (a.length + 1 + 1) 0 = v2 := by
    rw [show a.length + 1 + 1 = a.length + 2 from by omega, getD_append_idx]; rfl
  have hgd3 : (a ++ [u, v1, v2, v3, x]).getD (a.length + 1 + 1 + 1) 0 = v3 := by
    rw [show a.length + 1 + 1 + 1 = a.length + 3 from by omega, getD_append_idx]; rfl
  have hlim : a.length + 5 - 4 = a.length + 1 := by omega
  rw [dlrStart, hL, if_neg (by omega),
    show a.length + 5 - 2 = a.length + 1 + 1 + 1 from by omega, hlim,
    scan_step (by rw [hgd3]; exact h3) (by omega),
    scan_step (by rw [hgd2]; exact h2) (by omega),
    scan_none_at (by rw [hgd1]; exact h1)]
  show (if a.length + 1 = 0 then 0 else a.length + 1 - 1) = a.length
  rw [if_neg (by omega)]
  omega

/-- Decoding a proper non-empty prefix of a valid multi-byte encoding
fails with `(RErr, 1)`. -/
theorem decodeTruncated {c : List Nat} (h : validEnc c = true) {j : Nat}
    (h1 : 1 ≤ j) (hj : j < c.length) : decodeRune (c.take j) = (RErr, 1) := by
  match c, h with
  | [x], h => simp at hj; omega
  | [x, y], h =>
    rw [validEnc] at h
    simp only [Bool.and_eq_true, decide_eq_true_eq] at h
    simp only [List.length_cons, List.length_nil] at hj
    interval_cases j
    · rw [show ([x, y].take 1 : List Nat) = [x] from rfl, decodeRune,
        if_neg (by omega), if_neg (by omega), if_pos h.1.2]
  | [x, y, z], h =>
    rw [validEnc] at h
    simp only [Bool.and_eq_true, decide_eq_true_eq] at h
    simp only [List.length_cons, List.length_nil] at hj
    interval_cases j
    · rw [show ([x, y, z].take 1 : List Nat) = [x] from rfl, decodeRune,
        if_neg (by omega), if_neg (by omega), if_neg (by omega), if_pos h.1.1.2]
    · rw [show ([x, y, z].take 2 : List Nat) = [x, y] from rfl, decodeRune,
        if_neg (by omega), if_neg (by omega), if_neg (by omega), if_pos h.1.1.2]
  | [x, y, z, w], h =>
    rw [validEnc] at h
    simp only [Bool.and_eq_true, decide_eq_true_eq] at h
    have hxf : ¬x < 0xF0 := by omega
    have hxe : ¬x < 0xE0 := by omega
    have hxc : ¬x < 0xC2 := by omega
    have hx8 : ¬x < 0x80 := by omega
    simp only [List.length_cons, List.length_nil] at hj
    interval_cases j
    · rw [show ([x, y, z, w].take 1 : List Nat) = [x] from rfl, decodeRune,
        if_neg hx8, if_neg hxc, if_neg hxe, if_neg hxf, if_pos h.1.1.1.2]
    · rw [show ([x, y, z, w].take 2 : List Nat) = [x, y] from rfl, decodeRune,
        if_neg hx8, if_neg hxc, if_neg hxe, if_neg hxf, if_pos h.1.1.1.2]
    · rw [show ([x, y, z, w].take 3 : List Nat) = [x, y, z] from rfl, decodeRune,
        if_neg hx8, if_neg hxc, if_neg hxe, if_neg hxf, if_pos h.1.1.1.2]
  | [], h => simp [validEnc] at h
  | _ :: _ :: _ :: _ :: _ :: _, h => simp [validEnc] at h

theorem decodeLastRune_append_lead1 {x : Nat} (hx : 0xC2 ≤ x)
    (hdx : decodeRune [x] = (RErr, 1)) {a : List Nat} (ha : Chunks a) :
    decodeLastRune (a ++ [x]) = (RErr, 1) := by
  rcases chunks_rev_decomp ha with rfl | ⟨a', d, ha', hd, rfl⟩
  · have h0 : dlrStart [x] = 0 := by rw [dlrStart]; simp
    simp only [List.nil_append, decodeLastRune,
      show ([x] : List Nat).getLast? = some x from rfl]
    rw [if_neg (show ¬x < 0x80 by omega), h0, List.drop_zero, hdx]
    simp
  · match d, hd with
    | [u], hd =>
      have hu : u < 0x80 := by simpa [validEnc] using hd
      have hs : (a' ++ [u]) ++ [x] = a' ++ [u, x] := by simp
      rw [hs]
      have hlast : (a' ++ [u, x]).getLast? = some x := by rw [getLast?_append_cons]; rfl
      simp only [decodeLastRune, hlast]
      rw [if_neg (show ¬x < 0x80 by omega), dlrStart_rs2 (runeStart_of_lt hu) a' x,
        List.drop_left, show decodeRune [u, x] = (u, 1) from by simp [decodeRune, hu]]
      rw [if_neg (by simp)]
    | [u, v], hd =>
      have hu : (0xC2 : Nat) ≤ u := by simpa using validEnc_head_big hd (by simp)
      have hv : (0x80 : Nat) ≤ v ∧ v < 0xC0 := by
        simpa using validEnc_cont hd 1 le_rfl (by simp)
      have hs : (a' ++ [u, v]) ++ [x] = a' ++ [u, v, x] := by simp
      have hdec : decodeRune [u, v, x] = ((decodeRune [u, v]).1, 2) := by
        have := decode_append_validEnc hd [x]
        simpa using this
      rw [hs]
      have hlast : (a' ++ [u, v, x]).getLast? = some x := by rw [getLast?_append_cons]; rfl
      simp only [decodeLastRune, hlast]
      rw [if_neg (show ¬x < 0x80 by omega),
        dlrStart_rs3 (runeStart_of_ge (by omega)) (runeStart_cont hv) a' x,
        List.drop_left, hdec]
      rw [if_neg (by simp)]
    | [u, v1, v2], hd =>
      have hu : (0xC2 : Nat) ≤ u := by simpa using validEnc_head_big hd (by simp)
      have hv1 : (0x80 : Nat) ≤ v1 ∧ v1 < 0xC0 := by
        simpa using validEnc_cont hd 1 le_rfl (by simp)
      have hv2 : (0x80 : Nat) ≤ v2 ∧ v2 < 0xC0 := by
        simpa using validEnc_cont hd 2 (by omega) (by simp)
      have hs : (a' ++ [u, v1, v2]) ++ [x] = a' ++ [u, v1, v2, x] := by simp
      have hdec : decodeRune [u, v1, v2, x] = ((decodeRune [u, v1, v2]).1, 3) := by
        have := decode_append_validEnc hd [x]
        simpa using this
      rw [hs]
      have hlast : (a' ++ [u, v1, v2, x]).getLast? = some x := by
        rw [getLast?_append_cons]; rfl
      simp only [decodeLastRune, hlast]
      rw [if_neg (show ¬x < 0x80 by omega),
        dlrStart_rs4 (runeStart_of_ge (by omega)) (runeStart_cont hv1)
          (runeStart_cont hv2) a' x,
        List.drop_left, hdec]
      rw [if_neg (by simp)]
    | [u, v1, v2, v3], hd =>
      have hv1 : (0x80 : Nat) ≤ v1 ∧ v1 < 0xC0 := by
        simpa using validEnc_cont hd 1 le_rfl (by simp)
      have hv2 : (0x80 : Nat) ≤ v2 ∧ v2 < 0xC0 := by
        simpa using validEnc_cont hd 2 (by omega) (by simp)
      have hv3 : (0x80 : Nat) ≤ v3 ∧ v3 < 0xC0 := by
        simpa using validEnc_cont hd 3 (by omega) (by simp)
      have hs : (a' ++ [u, v1, v2, v3]) ++ [x] = a' ++ [u, v1, v2, v3, x] := by simp
      have hdec : decodeRune [u, v1, v2, v3, x] = ((decodeRune [u, v1, v2, v3]).1, 4) := by
        have := decode_append_validEnc hd [x]
        simpa using this
      rw [hs]
      have hlast : (a' ++ [u, v1, v2, v3, x]).getLast? = some x := by
        rw [getLast?_append_cons]; rfl
      simp only [decodeLastRune, hlast]
      rw [if_neg (show ¬x < 0x80 by omega),
        dlrStart_cont5 (runeStart_cont hv1) (runeStart_cont hv2) (runeStart_cont hv3)
          a' u x,
        List.drop_left, hdec]
      rw [if_neg (by simp)]
    | [], hd => simp [validEnc] at hd
    | _ :: _ :: _ :: _ :: _ :: _, hd => simp [validEnc] at hd

theorem dlrTrunc2 {x y : Nat} (hx : 0xC2 ≤ x) (hy : 0x80 ≤ y ∧ y < 0xC0)
    (hpd : decodeRune [x, y] = (RErr, 1)) (a : List Nat) :
    decodeLastRune (a ++ [x, y]) = (RErr, 1) := by
  have hlast : (a ++ [x, y]).getLast? = some y := by rw [getLast?_append_cons]; rfl
  simp only [decodeLastRune, hlast]
  rw [if_neg (show ¬y < 0x80 by omega), dlrStart_rs2 (runeStart_of_ge (by omega)) a y,
    List.drop_left, hpd]
  rw [if_neg (by simp)]

theorem dlrTrunc3 {x y z : Nat} (hx : 0xC2 ≤ x) (hy : 0x80 ≤ y ∧ y < 0xC0)
    (hz : 0x80 ≤ z ∧ z < 0xC0) (hpd : decodeRune [x, y, z] = (RErr, 1)) (a : List Nat) :
    decodeLastRune (a ++ [x, y, z]) = (RErr, 1) := by
  have hlast : (a ++ [x, y, z]).getLast? = some z := by rw [getLast?_append_cons]; rfl
  simp only [decodeLastRune, hlast]
  rw [if_neg (show ¬z < 0x80 by omega),
    dlrStart_rs3 (runeStart_of_ge (by omega)) (runeStart_cont hy) a z,
    List.drop_left, hpd]
  rw [if_neg (by simp)]

/-- `DecodeLastRuneInString` on a string that ends strictly inside a
valid multi-byte encoding (preceded by whole chunks) fails with
`(RErr, 1)` — this is what drives the adjustment loop of
`SplitMessage`. -/
theorem decodeLastRune_mid_chunk {a c : List Nat} (ha : Chunks a)
    (hc : validEnc c = true) {j : Nat} (h1 : 1 ≤ j) (hj : j < c.length) :
    decodeLastRune (a ++ c.take j) = (RErr, 1) := by
  have hhead : 2 ≤ c.length → (0xC2 : Nat) ≤ c.getD 0 0 := validEnc_head_big hc
  match c, hc with
  | [x, y], hc =>
    simp only [List.length_cons, List.length_nil] at hj
    interval_cases j
    · exact decodeLastRune_append_lead1 (by simpa using hhead (by simp))
        (by simpa using @decodeTruncated [x, y] hc 1 le_rfl (by simp)) ha
  | [x, y, z], hc =>
    have hy : (0x80 : Nat) ≤ y ∧ y < 0xC0 := by
      simpa using validEnc_cont hc 1 le_rfl (by simp)
    simp only [List.length_cons, List.length_nil] at hj
    interval_cases j
    · exact decodeLastRune_append_lead1 (by simpa using hhead (by simp))
        (by simpa using @decodeTruncated [x, y, z] hc 1 le_rfl (by simp)) ha
    · exact dlrTrunc2 (by simpa using hhead (by simp)) hy
        (by simpa using @decodeTruncated [x, y, z] hc 2 (by omega) (by simp)) a
  | [x, y, z, w], hc =>
    have hy : (0x80 : Nat) ≤ y ∧ y < 0xC0 := by
      simpa using validEnc_cont hc 1 le_rfl (by simp)
    have hz : (0x80 : Nat) ≤ z ∧ z < 0xC0 := by
      simpa using validEnc_cont hc 2 (by omega) (by simp)
    simp only [List.length_cons, List.length_nil] at hj
    interval_cases j
    · exact decodeLastRune_append_lead1 (by simpa using hhead (by simp))
        (by simpa using @decodeTruncated [x, y, z, w] hc 1 le_rfl (by simp)) ha
    · exact dlrTrunc2 (by simpa using hhead (by simp)) hy
        (by simpa using @decodeTruncated [x, y, z, w] hc 2 (by omega) (by simp)) a
    · exact dlrTrunc3 (by simpa using hhead (by simp)) hy hz
        (by simpa using @decodeTruncated [x, y, z, w] hc 3 (by omega) (by simp)) a
  | [x], hc => simp at hj; omega
  | [], hc => simp [validEnc] at hc
  | _ :: _ :: _ :: _ :: _ :: _, hc => simp [validEnc] at hc

/-! ### Rune boundaries -/

theorem boundary_zero (s : List Nat) : boundaryOK s 0 = true := by
  simp [boundaryOK, decodeLastRune]

/-- Position `p` of `s` is a chunk boundary: both sides are valid. -/
def CBdry (s : List Nat) (p : Nat) : Prop :=
  ∃ a b, s = a ++ b ∧ a.length = p ∧ Chunks a ∧ Chunks b

theorem cbdry_zero (s : List Nat) (h : Chunks s) : CBdry s 0 :=
  ⟨[], s, rfl, rfl, Chunks.nil, h⟩

theorem cbdry_take_drop {s : List Nat} {p : Nat} (h : CBdry s p) :
    Chunks (s.take p) ∧ Chunks (s.drop p) := by
  obtain ⟨a, b, rfl, rfl, ha, hb⟩ := h
  rw [List.take_left, List.drop_left]
  exact ⟨ha, hb⟩

theorem cbdry_shift {c s : List Nat} (hc : Chunks c) {p : Nat} (h : CBdry s p) :
    CBdry (c ++ s) (c.length + p) := by
  obtain ⟨a, b, rfl, rfl, ha, hb⟩ := h
  exact ⟨c ++ a, b, by simp, by simp, chunks_append hc ha, hb⟩

theorem boundaryOK_of_chunks_take {s : List Nat} {p : Nat}
    (h : Chunks (s.take p)) (hne : s.take p ≠ []) : boundaryOK s p = true := by
  rcases chunks_rev_decomp h with hnil | ⟨a', c, ha', hc, heq⟩
  · exact absurd hnil hne
  rw [boundaryOK]
  simp only [heq, decodeLastRune_append_validEnc hc a']
  have hlen := validEnc_len hc
  by_cases hc1 : c.length = 1
  · have : (decodeRune c).1 < 0x80 := decode_validEnc_head hc hc1
    have : ¬((decodeRune c).1 == RErr) = true := by
      simp only [beq_iff_eq]
      rw [RErr]
      omega
    simp only [Bool.and_eq_true] at *
    simp [this]
  · have : ¬(c.length == 1) = true := by simpa using hc1
    simp [this]

theorem chunks_single {c : List Nat} (hc : validEnc c = true) : Chunks c := by
  have := Chunks.cons hc Chunks.nil
  simpa using this

/-- Every position of a valid string is either a chunk boundary or
strictly inside a multi-byte chunk. -/
theorem chunks_position {s : List Nat} (h : Chunks s) :
    ∀ p, p ≤ s.length → CBdry s p ∨
      ∃ a c b j, s = a ++ (c ++ b) ∧ Chunks a ∧ validEnc c = true ∧ Chunks b ∧
        p = a.length + j ∧ 1 ≤ j ∧ j < c.length := by
  induction h with
  | nil =>
    intro p hp
    simp at hp
    subst hp
    exact Or.inl (cbdry_zero [] Chunks.nil)
  | cons hc hs ih =>
    rename_i c s'
    intro p hp
    by_cases hpc : p < c.length
    · by_cases hp0 : p = 0
      · subst hp0
        exact Or.inl (cbdry_zero _ (Chunks.cons hc hs))
      · exact Or.inr ⟨[], c, s', p, by simp, Chunks.nil, hc, hs, by simp, by omega, hpc⟩
    · have hple : c.length ≤ p := by omega
      have hp' : p - c.length ≤ s'.length := by
        rw [List.length_append] at hp
        omega
      rcases ih (p - c.length) hp' with hcb | ⟨a, d, b, j, heq, hca, hd, hb, hj, h1, h2⟩
      · have := cbdry_shift (chunks_single hc) hcb
        rw [show c.length + (p - c.length) = p from by omega] at this
        exact Or.inl this
      · refine Or.inr ⟨c ++ a, d, b, j, ?_, chunks_append (chunks_single hc) hca, hd, hb, ?_, h1, h2⟩
        · rw [heq]; simp
        · simp only [List.length_append]; omega

/-- On a valid string, the adjustment loop's break condition holds only
at genuine chunk boundaries. -/
theorem boundary_imp_cb {s : List Nat} (h : Chunks s) {p : Nat}
    (hp : p ≤ s.length) (hb : boundaryOK s p = true) : CBdry s p := by
  rcases chunks_position h p hp with hcb | ⟨a, c, b, j, heq, hca, hc, hcb, hj, h1, h2⟩
  · exact hcb
  exfalso
  have htake : s.take p = a ++ c.take j := by
    rw [heq, hj, List.take_append_eq_append_take,
      List.take_of_length_le (show a.length ≤ a.length + j from by omega),
      show a.length + j - a.length = j from by omega,
      List.take_append_eq_append_take,
      show j - c.length = 0 from by omega]
    simp
  rw [boundaryOK, htake, decodeLastRune_mid_chunk hca hc h1 h2] at hb
  simp [RErr] at hb

/-! ### Trimming and the adjustment loops -/

theorem trimAux_length_le : ∀ (f : Nat) (s : List Nat), (trimAux f s).length ≤ s.length := by
  intro f
  induction f with
  | zero => intro s; simp [trimAux]
  | succ f ih =>
    intro s
    match s with
    | [] => simp [trimAux]
    | b :: rest =>
      rw [trimAux]
      split
      · calc (trimAux f ((b :: rest).drop (decodeRune (b :: rest)).2)).length
            ≤ ((b :: rest).drop (decodeRune (b :: rest)).2).length := ih _
          _ ≤ (b :: rest).length := by simp
      · exact le_rfl

theorem trimLeftSpace_length_le (s : List Nat) : (trimLeftSpace s).length ≤ s.length :=
  trimAux_length_le s.length s

theorem trimAux_chunks : ∀ (f : Nat) (s : List Nat), s.length ≤ f → Chunks s →
    Chunks (trimAux f s) := by
  intro f
  induction f with
  | zero =>
    intro s hs hch
    have : s = [] := List.length_eq_zero.mp (by omega)
    subst this
    simpa [trimAux] using hch
  | succ f ih =>
    intro s hs hch
    match s with
    | [] => simpa [trimAux] using hch
    | b :: rest =>
      rw [trimAux]
      split
      · obtain ⟨c, s', hc, hs', heq⟩ := chunks_decomp hch (by simp)
        have hdec : decodeRune (b :: rest) = ((decodeRune c).1, c.length) := by
          rw [heq]; exact decode_append_validEnc hc s'
        have hdrop : (b :: rest).drop (decodeRune (b :: rest)).2 = s' := by
          rw [hdec, heq, List.drop_left]
        rw [hdrop]
        refine ih s' ?_ hs'
        have hclen := validEnc_len hc
        have : (b :: rest).length = c.length + s'.length := by rw [heq]; simp
        simp only [List.length_cons] at hs this
        omega
      · exact hch

theorem trimLeftSpace_chunks {s : List Nat} (h : Chunks s) : Chunks (trimLeftSpace s) :=
  trimAux_chunks s.length s le_rfl h

theorem trimLeftSpace_cons_space (t : List Nat) :
    trimLeftSpace (32 :: t) = trimAux t.length t := by
  rw [trimLeftSpace, List.length_cons, trimAux]
  rw [if_pos (by rw [show decodeRune (32 :: t) = (32, 1) from by simp [decodeRune]]; rfl)]
  rw [show decodeRune (32 :: t) = (32, 1) from by simp [decodeRune]]
  rfl

theorem trimAux_fuel : ∀ (f g : Nat) (s : List Nat), s.length ≤ f → s.length ≤ g →
    trimAux f s = trimAux g s := by
  intro f
  induction f with
  | zero =>
    intro g s hf hg
    have : s = [] := List.length_eq_zero.mp (by omega)
    subst this
    cases g <;> simp [trimAux]
  | succ f ih =>
    intro g s hf hg
    match s with
    | [] => cases g <;> simp [trimAux]
    | b :: rest =>
      match g with
      | 0 => simp at hg
      | g' + 1 =>
        rw [trimAux, trimAux]
        split
        · have hsz := decodeRune_cons_size b rest
          have hdl : ((b :: rest).drop (decodeRune (b :: rest)).2).length ≤ f := by
            simp only [List.length_drop, List.length_cons] at *
            omega
          have hdg : ((b :: rest).drop (decodeRune (b :: rest)).2).length ≤ g' := by
            simp only [List.length_drop, List.length_cons] at *
            omega
          exact ih g' _ hdl hdg
        · rfl

theorem splitUpAux_ge (s : List Nat) : ∀ (f q : Nat), q ≤ splitUpAux s f q := by
  intro f
  induction f with
  | zero => intro q; simp [splitUpAux]
  | succ f ih =>
    intro q
    rw [splitUpAux]
    split
    · exact le_rfl
    split
    · exact le_rfl
    · exact le_trans (by omega) (ih (q + 1))

theorem splitUpAux_spec (s : List Nat) (K : Nat) (hb : boundaryOK s K = true)
    (hKl : K ≤ s.length) :
    ∀ (f q : Nat), q ≤ K → K - q ≤ f →
      boundaryOK s (splitUpAux s f q) = true ∧ splitUpAux s f q ≤ K := by
  intro f
  induction f with
  | zero =>
    intro q hq hf
    have : q = K := by omega
    subst this
    exact ⟨by simpa [splitUpAux] using hb, by simp [splitUpAux]⟩
  | succ f ih =>
    intro q hq hf
    rw [splitUpAux]
    by_cases hbq : boundaryOK s q = true
    · rw [if_pos hbq]
      exact ⟨hbq, hq⟩
    rw [if_neg hbq]
    have hqK : q ≠ K := fun h => hbq (h ▸ hb)
    rw [if_neg (by omega)]
    exact ih (q + 1) (by omega) (by omega)

theorem splitUpAdj_spec (s : List Nat) (K q : Nat) (hb : boundaryOK s K = true)
    (hKl : K ≤ s.length) (hq : q ≤ K) :
    boundaryOK s (splitUpAdj s q) = true ∧ splitUpAdj s q ≤ K :=
  splitUpAux_spec s K hb hKl (s.length + 1 - q) q hq (by omega)

theorem splitDownAdj_pos (s : List Nat) : ∀ p, 1 ≤ p → 1 ≤ splitDownAdj s p := by
  intro p
  induction p with
  | zero => intro h; omega
  | succ p ih =>
    intro _
    rw [splitDownAdj]
    split
    · omega
    split
    · calc 1 ≤ 1 := le_rfl
        _ ≤ splitUpAux s (s.length + 1 - 1) 1 := splitUpAux_ge s _ 1
    · exact ih (by rename_i h1 h2; omega)

theorem splitDownAdj_spec (s : List Nat) (K : Nat) (hb : boundaryOK s K = true)
    (hK1 : 1 ≤ K) (hKl : K ≤ s.length) :
    ∀ p, boundaryOK s (splitDownAdj s p) = true ∧ splitDownAdj s p ≤ max p K := by
  intro p
  induction p with
  | zero =>
    rw [splitDownAdj]
    exact ⟨boundary_zero s, by omega⟩
  | succ p ih =>
    rw [splitDownAdj]
    by_cases hbp : boundaryOK s (p + 1) = true
    · rw [if_pos hbp]
      exact ⟨hbp, by omega⟩
    rw [if_neg hbp]
    by_cases hp0 : p = 0
    · rw [if_pos hp0]
      have := splitUpAdj_spec s K 1 hb hKl hK1
      exact ⟨this.1, by omega⟩
    · rw [if_neg hp0]
      exact ⟨ih.1, by omega⟩

/-! ### The splitting loop -/

theorem lastIndexByte_spec (b : Nat) : ∀ (l : List Nat) (k : Nat),
    lastIndexByte b l = some k → k < l.length ∧ l.getD k 0 = b := by
  intro l
  induction l with
  | nil => intro k h; simp [lastIndexByte] at h
  | cons x t ih =>
    intro k h
    rw [lastIndexByte] at h
    cases ht : lastIndexByte b t with
    | some k' =>
      simp only [ht] at h
      injection h with h
      subst h
      have := ih k' ht
      exact ⟨by simp only [List.length_cons]; omega, by simpa using this.2⟩
    | none =>
      simp only [ht] at h
      by_cases hx : x = b
      · rw [if_pos hx] at h
        injection h with h
        subst h
        exact ⟨by simp, by simpa using hx⟩
      · rw [if_neg hx] at h
        exact absurd h (by simp)

theorem getD_take_lt : ∀ (s : List Nat) (n k : Nat), k < n →
    (s.take n).getD k 0 = s.getD k 0 := by
  intro s
  induction s with
  | nil => intro n k _; simp
  | cons x t ih =>
    intro n k h
    match n, k with
    | n + 1, 0 => simp
    | n + 1, k + 1 => simpa using ih n k (by omega)

theorem first_chunk_boundary {s : List Nat} (h : Chunks s) (hne : s ≠ []) :
    ∃ K, 1 ≤ K ∧ K ≤ 4 ∧ K ≤ s.length ∧ boundaryOK s K = true := by
  obtain ⟨c, s', hc, hs', heq⟩ := chunks_decomp h hne
  have hlen := validEnc_len hc
  have hKl : c.length ≤ s.length := by
    rw [heq, List.length_append]
    omega
  have htk : s.take c.length = c := by rw [heq, List.take_left]
  refine ⟨c.length, hlen.1, hlen.2, hKl, ?_⟩
  apply boundaryOK_of_chunks_take
  · rw [htk]; exact chunks_single hc
  · rw [htk]
    intro hnil
    rw [hnil] at hlen
    simp at hlen

theorem drop_trim_lt (s : List Nat) (p : Nat) (h1 : 1 ≤ p) (hs : 1 ≤ s.length) :
    (trimLeftSpace (s.drop p)).length < s.length := by
  calc (trimLeftSpace (s.drop p)).length ≤ (s.drop p).length := trimLeftSpace_length_le _
    _ = s.length - p := by simp
    _ < s.length := by omega

theorem splitLoop_progress (mp : Nat) (s : List Nat) (h : mp + 1 < s.length) :
    (trimLeftSpace (s.drop (splitDownAdj s
      ((lastIndexByte 32 (s.take (mp + 1))).getD (mp + 1))))).length < s.length := by
  cases hli : lastIndexByte 32 (s.take (mp + 1)) with
  | none =>
    simp only [Option.getD_none]
    exact drop_trim_lt s _ (splitDownAdj_pos s (mp + 1) (by omega)) (by omega)
  | some k =>
    simp only [Option.getD_some]
    by_cases hk0 : k = 0
    · subst hk0
      have hgd := (lastIndexByte_spec 32 _ 0 hli).2
      have hgd' : s.getD 0 0 = 32 := by
        rw [← getD_take_lt s (mp + 1) 0 (by omega)]
        exact hgd
      match s, h with
      | b :: t, h =>
        have hb : b = 32 := by simpa using hgd'
        subst hb
        rw [show splitDownAdj (32 :: t) 0 = 0 from rfl, List.drop_zero,
          trimLeftSpace_cons_space]
        calc (trimAux t.length t).length ≤ t.length := trimAux_length_le _ _
          _ < (32 :: t).length := by simp
    · exact drop_trim_lt s _ (splitDownAdj_pos s k (by omega)) (by omega)

theorem splitLoopAux_spec (mp : Nat) : ∀ (f : Nat) (s : List Nat), s.length ≤ f →
    Chunks s → ∀ q ∈ splitLoopAux mp f s, Chunks q ∧ q.length ≤ max (mp + 1) 4 := by
  intro f
  induction f with
  | zero =>
    intro s hf hch q hq
    have : s = [] := List.length_eq_zero.mp (by omega)
    subst this
    simp [splitLoopAux] at hq
  | succ f ih =>
    intro s hf hch q hq
    rw [splitLoopAux] at hq
    by_cases hlen : s.length ≤ mp + 1
    · rw [if_pos hlen] at hq
      by_cases h0 : s.length = 0
      · rw [if_pos h0] at hq
        simp at hq
      · rw [if_neg h0] at hq
        simp only [List.mem_singleton] at hq
        subst hq
        exact ⟨hch, by omega⟩
    · rw [if_neg hlen] at hq
      have hne : s ≠ [] := by
        intro hnil
        rw [hnil] at hlen
        simp at hlen
      obtain ⟨K, hK1, hK4, hKl, hKb⟩ := first_chunk_boundary hch hne
      have hp0le : (lastIndexByte 32 (s.take (mp + 1))).getD (mp + 1) ≤ mp + 1 := by
        cases hli : lastIndexByte 32 (s.take (mp + 1)) with
        | none => simp
        | some k =>
          have hk := (lastIndexByte_spec 32 _ k hli).1
          have hkt : (s.take (mp + 1)).length ≤ mp + 1 := by simp
          simp only [Option.getD_some]
          omega
      obtain ⟨hbpos, hple⟩ :=
        splitDownAdj_spec s K hKb hK1 hKl ((lastIndexByte 32 (s.take (mp + 1))).getD (mp + 1))
      have hposle : splitDownAdj s ((lastIndexByte 32 (s.take (mp + 1))).getD (mp + 1)) ≤
          s.length := by omega
      have hcb := boundary_imp_cb hch hposle hbpos
      obtain ⟨htc, hdc⟩ := cbdry_take_drop hcb
      rcases List.mem_cons.mp hq with rfl | hq'
      · refine ⟨htc, ?_⟩
        have : (s.take (splitDownAdj s
            ((lastIndexByte 32 (s.take (mp + 1))).getD (mp + 1)))).length ≤
            splitDownAdj s ((lastIndexByte 32 (s.take (mp + 1))).getD (mp + 1)) := by
          simp
        omega
      · have hprog := splitLoop_progress mp s (by omega)
        exact ih _ (by omega) (trimLeftSpace_chunks hdc) q hq'

theorem splitLoop_spec (mp : Nat) (s : List Nat) (hch : Chunks s) :
    ∀ q ∈ splitLoop mp s, Chunks q ∧ q.length ≤ max (mp + 1) 4 :=
  splitLoopAux_spec mp s.length s le_rfl hch

/-- In a valid string, the position just after an ASCII byte is a chunk
boundary (ASCII bytes only occur as single-byte chunks). -/
theorem cb_after_ascii {s : List Nat} (h : Chunks s) :
    ∀ i, i < s.length → s.getD i 0 < 0x80 → CBdry s (i + 1) := by
  induction h with
  | nil => intro i hi _; simp at hi
  | cons hc hs ih =>
    rename_i c s'
    intro i hi hb
    by_cases hic : i < c.length
    · have hbc : (c ++ s').getD i 0 = c.getD i 0 := List.getD_append _ _ _ _ hic
      rw [hbc] at hb
      have hone : i + 1 = c.length := by
        by_cases h2 : 2 ≤ c.length
        · exfalso
          by_cases hi0 : i = 0
          · subst hi0
            have := validEnc_head_big hc h2
            omega
          · have := validEnc_cont hc i (by omega) hic
            omega
        · have := validEnc_len hc
          omega
      rw [hone]
      exact ⟨c, s', rfl, rfl, chunks_single hc, hs⟩
    · have hi' : i - c.length < s'.length := by
        rw [List.length_append] at hi
        omega
      have hb' : s'.getD (i - c.length) 0 < 0x80 := by
        rw [List.getD_append_right c s' 0 i (by omega)] at hb
        exact hb
      have hcb := cbdry_shift (chunks_single hc) (ih (i - c.length) hi' hb')
      rw [show c.length + (i - c.length + 1) = i + 1 from by omega] at hcb
      exact hcb

/-- The header cut `pl = idx + 2` of `SplitMessage` is a chunk boundary,
so both the repeated header and the text portion are valid. -/
theorem splitMessage_header_cb {s : List Nat} {idx : Nat} (hch : Chunks s)
    (hidx : goIndex2 32 58 s = some idx) : CBdry s (idx + 2) := by
  obtain ⟨hlen, _, hcolon⟩ := goIndex2_spec 32 58 s idx hidx
  have := cb_after_ascii hch (idx + 1) (by omega) (by rw [hcolon]; norm_num)
  simpa [Nat.add_assoc] using this

/-- C2 (as amended only by making the text portion well-defined: the
line contains a `" :"` separator, the documented shape of the messages
`SplitMessage` is applied to): on valid UTF-8 input every piece produced
by `SplitMessage` is itself valid UTF-8 — no cut splits a multi-byte
rune, neither inside the repeated header nor in the text portion. -/
theorem splitMessage_rune_boundaries (s : List Nat) (n : Int) (idx : Nat)
    (hv : validUTF8 s = true) (hidx : goIndex2 32 58 s = some idx) :
    ∀ q ∈ SplitMessage s n, validUTF8 q = true := by
  intro q hq
  have hch : Chunks s := (validUTF8_iff_chunks s).mp hv
  by_cases hn : (s.length : Int) < n
  · rw [SplitMessage, if_pos (Or.inl hn)] at hq
    simp only [List.mem_singleton] at hq
    subst hq
    exact hv
  · rw [SplitMessage, if_neg (by simp [hv, hn])] at hq
    simp only [hidx] at hq
    obtain ⟨htc, hdc⟩ := cbdry_take_drop (splitMessage_header_cb hch hidx)
    rcases List.mem_map.mp hq with ⟨piece, hp, rfl⟩
    have hpc := (splitLoop_spec _ _ hdc piece hp).1
    exact (validUTF8_iff_chunks _).mpr (chunks_append htc hpc)

/-- Witness for C2 at a concrete line and budget. -/
theorem splitMessage_rune_boundaries_witness :
    validUTF8 [97, 32, 58, 97, 98, 32, 99, 100] = true ∧
    goIndex2 32 58 [97, 32, 58, 97, 98, 32, 99, 100] = some 1 ∧
    ∀ q ∈ SplitMessage [97, 32, 58, 97, 98, 32, 99, 100] 6, validUTF8 q = true :=
  ⟨by decide, by decide,
    splitMessage_rune_boundaries [97, 32, 58, 97, 98, 32, 99, 100] 6 1
      (by decide) (by decide)⟩

/-- C1, counterexample: on the valid UTF-8 line `"a :ああ"` (header
`"a :"`, `hl = 3`) with budget `n = 3`, `SplitMessage` produces pieces of
6 bytes, exceeding the claimed bound `max(n, hl+1) = 4`: with a text
budget of 1 byte the adjustment loop advances past the 3-byte rune. -/
theorem splitMessage_len_counterexample :
    validUTF8 [97, 32, 58, 227, 129, 130, 227, 129, 130] = true ∧
    goIndex2 32 58 [97, 32, 58, 227, 129, 130, 227, 129, 130] = some 1 ∧
    ¬(∀ q ∈ SplitMessage [97, 32, 58, 227, 129, 130, 227, 129, 130] 3,
        (q.length : Int) ≤ max 3 ((1 : Int) + 2 + 1)) := by decide

/-- C1, amended: on valid UTF-8 input containing `" :"`, every piece
produced by `SplitMessage(s, n)` has byte length at most
`max(n, hl + 4)` where `hl = idx + 2` is the header length (the `+4`
instead of the claimed `+1` is forced by the rune-boundary adjustment
advancing over a rune of up to four bytes when the text budget is
smaller than the rune). -/
theorem splitMessage_len_bound (s : List Nat) (n : Int) (idx : Nat)
    (hv : validUTF8 s = true) (hidx : goIndex2 32 58 s = some idx) :
    ∀ q ∈ SplitMessage s n, (q.length : Int) ≤ max n ((idx : Int) + 2 + 4) := by
  intro q hq
  have hch : Chunks s := (validUTF8_iff_chunks s).mp hv
  by_cases hn : (s.length : Int) < n
  · rw [SplitMessage, if_pos (Or.inl hn)] at hq
    simp only [List.mem_singleton] at hq
    subst hq
    rw [le_max_iff]
    left
    omega
  · rw [SplitMessage, if_neg (by simp [hv, hn])] at hq
    simp only [hidx] at hq
    obtain ⟨hlen2, _, _⟩ := goIndex2_spec 32 58 s idx hidx
    obtain ⟨htc, hdc⟩ := cbdry_take_drop (splitMessage_header_cb hch hidx)
    rcases List.mem_map.mp hq with ⟨piece, hp, rfl⟩
    have hreplen : (s.take (idx + 2)).length = idx + 2 := by
      rw [List.length_take]
      omega
    have hqlen : (s.take (idx + 2) ++ piece).length = (idx + 2) + piece.length := by
      rw [List.length_append, hreplen]
    rcases le_or_lt (n - ((idx + 2 : Nat) : Int)) 0 with hcase | hcase
    · rw [if_pos hcase] at hp
      have hps := splitLoop_spec (1 - 1) _ hdc piece hp
      have hple : piece.length ≤ 4 := by simpa using hps.2
      rw [hqlen, le_max_iff]
      right
      push_cast
      omega
    · rw [if_neg (by omega)] at hp
      have hps := splitLoop_spec ((n - ((idx + 2 : Nat) : Int)).toNat - 1) _ hdc piece hp
      have hM1 : 1 ≤ (n - ((idx + 2 : Nat) : Int)).toNat := by omega
      rw [show (n - ((idx + 2 : Nat) : Int)).toNat - 1 + 1 =
        (n - ((idx + 2 : Nat) : Int)).toNat from by omega] at hps
      rcases le_max_iff.mp hps.2 with h4 | h4
      · rw [hqlen, le_max_iff]
        left
        push_cast
        omega
      · rw [hqlen, le_max_iff]
        right
        push_cast
        omega

/-- Witness for the amended C1 at the counterexample input: the 6-byte
pieces do satisfy the corrected bound `max(3, 1+2+4) = 7`. -/
theorem splitMessage_len_bound_witness :
    validUTF8 [97, 32, 58, 227, 129, 130, 227, 129, 130] = true ∧
    goIndex2 32 58 [97, 32, 58, 227, 129, 130, 227, 129, 130] = some 1 ∧
    ∀ q ∈ SplitMessage [97, 32, 58, 227, 129, 130, 227, 129, 130] 3,
      (q.length : Int) ≤ max 3 ((1 : Int) + 2 + 4) :=
  ⟨by decide, by decide,
    splitMessage_len_bound [97, 32, 58, 227, 129, 130, 227, 129, 130] 3 1
      (by decide) (by decide)⟩
